import Mathlib

/-!
Verification of the position-state core of the rice chess engine
(`src/chess.cpp`): board representation, reversible move application,
incremental hashing and the evaluator-accumulator bridge.

The development shallowly embeds `Board::makeMove`, `Board::unmakeMove`,
`Board::makeNullMove`, `Board::unmakeNullMove`, `Board::applyFen` and the
piece-mutation helpers (`placePiece` / `removePiece` / `movePiece`) as pure
functions on an explicit `Board` record.  Machine 64-bit words (`U64`
bitboards, hash keys) are modelled as `Nat` together with an explicit
`MASK64 = 2^64 - 1` where the C++ performs 64-bit complement.

Declarations that live in the repository's missing header `chess.hpp`
(piece/square encodings, Zobrist table accessors, `zobristHash`,
`PawnAttacks`, castling-right helpers, `splitInput`) are modelled from the
specification; each such definition carries a doc comment starting with
"Modelled from the spec".  The NNUE evaluator (`nnue.h`, also not in
`src/`) is modelled as an event trace: every call the board core makes into
the evaluator interface is recorded as an `NNEvent`, and the king-bucket
table `NNUE::KING_BUCKET` is an abstract parameter `κ : Fin 64 → Nat`.
-/

namespace Rice

/-- Colors, as in the `Color` enum of the missing header (`White = 0`, `Black = 1`). -/
inductive Color where
  | White
  | Black
deriving DecidableEq, Fintype

/-- Modelled from the spec: the `~` operator on colors (flip side). -/
def opColor : Color → Color
  | Color.White => Color.Black
  | Color.Black => Color.White

/-- Numeric value of a color (used for the `static_cast<bool>(sideToMove) * 56` mirror). -/
def colorIdx : Color → Nat
  | Color.White => 0
  | Color.Black => 1

/-- Piece types, as in the `PieceType` enum (`PAWN = 0 .. KING = 5`, `NONETYPE = 6`). -/
inductive PieceType where
  | PAWN
  | KNIGHT
  | BISHOP
  | ROOK
  | QUEEN
  | KING
  | NONETYPE
deriving DecidableEq, Fintype

/-- Numeric value of a piece type. -/
def ptIdx : PieceType → Nat
  | PieceType.PAWN => 0
  | PieceType.KNIGHT => 1
  | PieceType.BISHOP => 2
  | PieceType.ROOK => 3
  | PieceType.QUEEN => 4
  | PieceType.KING => 5
  | PieceType.NONETYPE => 6

/-- Pieces, as in the `Piece` enum (`WhitePawn = 0 .. BlackKing = 11`, `None = 12`). -/
inductive Piece where
  | WhitePawn
  | WhiteKnight
  | WhiteBishop
  | WhiteRook
  | WhiteQueen
  | WhiteKing
  | BlackPawn
  | BlackKnight
  | BlackBishop
  | BlackRook
  | BlackQueen
  | BlackKing
  | None
deriving DecidableEq, Fintype

/-- Numeric value of a piece (its position in the `Piece` enum). -/
def pieceIdx : Piece → Nat
  | Piece.WhitePawn => 0
  | Piece.WhiteKnight => 1
  | Piece.WhiteBishop => 2
  | Piece.WhiteRook => 3
  | Piece.WhiteQueen => 4
  | Piece.WhiteKing => 5
  | Piece.BlackPawn => 6
  | Piece.BlackKnight => 7
  | Piece.BlackBishop => 8
  | Piece.BlackRook => 9
  | Piece.BlackQueen => 10
  | Piece.BlackKing => 11
  | Piece.None => 12

/-- The piece with a given enum value (`Piece(n)`); out-of-range values map to `None`. -/
def pieceOfIdx : Nat → Piece
  | 0 => Piece.WhitePawn
  | 1 => Piece.WhiteKnight
  | 2 => Piece.WhiteBishop
  | 3 => Piece.WhiteRook
  | 4 => Piece.WhiteQueen
  | 5 => Piece.WhiteKing
  | 6 => Piece.BlackPawn
  | 7 => Piece.BlackKnight
  | 8 => Piece.BlackBishop
  | 9 => Piece.BlackRook
  | 10 => Piece.BlackQueen
  | 11 => Piece.BlackKing
  | _ => Piece.None

/-- Modelled from the spec: `makePiece(PieceType, Color)` of the missing header,
which computes `Piece(type + 6 * color)`. -/
def makePiece (pt : PieceType) (c : Color) : Piece :=
  pieceOfIdx (ptIdx pt + 6 * colorIdx c)

/-- Modelled from the spec: `type_of_piece(Piece)` of the missing header
(`PieceType(piece % 6)`, with `None ↦ NONETYPE`). -/
def type_of_piece : Piece → PieceType
  | Piece.WhitePawn => PieceType.PAWN
  | Piece.WhiteKnight => PieceType.KNIGHT
  | Piece.WhiteBishop => PieceType.BISHOP
  | Piece.WhiteRook => PieceType.ROOK
  | Piece.WhiteQueen => PieceType.QUEEN
  | Piece.WhiteKing => PieceType.KING
  | Piece.BlackPawn => PieceType.PAWN
  | Piece.BlackKnight => PieceType.KNIGHT
  | Piece.BlackBishop => PieceType.BISHOP
  | Piece.BlackRook => PieceType.ROOK
  | Piece.BlackQueen => PieceType.QUEEN
  | Piece.BlackKing => PieceType.KING
  | Piece.None => PieceType.NONETYPE

/-- Modelled from the spec: the color code of the piece on a square
(`Board::colorOf`, `Color(board[loc] / 6)`; yields `2` for an empty square). -/
def colorCode (p : Piece) : Nat := pieceIdx p / 6

/-- The color bucket of a (non-empty) piece, as computed by the
`piece < BlackPawn ? White : Black` tests in the NNUE update calls. -/
def pieceColorW (p : Piece) : Color :=
  if pieceIdx p < 6 then Color.White else Color.Black

/-- Squares are `0 .. 63` (`a1 = 0`, `h8 = 63`), `Square` of the missing header. -/
abbrev Square := Fin 64

/-- The file of a square (`square_file`, `sq & 7`). -/
def squareFile (s : Square) : Nat := s.val % 8

/-- The rank of a square (`square_rank`, `sq >> 3`). -/
def squareRank (s : Square) : Nat := s.val / 8

/-- XOR of two squares stays a square (both arguments below `2^6`). -/
def sqXor (s : Square) (n : Fin 64) : Square :=
  ⟨s.val ^^^ n.val, Nat.xor_lt_two_pow (n := 6) s.isLt n.isLt⟩

/-- `Square(sq ^ 8)`: the square one rank toward the other side (used for the
en-passant victim / passed-over square). -/
def xor8 (s : Square) : Square := sqXor s ⟨8, by decide⟩

/-- `file_rank_square(File f, Rank r) = Square(r * 8 + f)` for `f, r < 8`. -/
def fileRankSquare (f : Nat) (hf : f < 8) (s : Square) : Square :=
  ⟨squareRank s * 8 + f, by
    have h := s.isLt
    simp only [squareRank]
    omega⟩

/-- `std::abs(from_sq - to_sq)` on square (int) values. -/
def absDiff (a b : Nat) : Nat := ((a : Int) - (b : Int)).natAbs

/-- All 64 bits set: the complement mask for `U64` operations. -/
def MASK64 : Nat := 2 ^ 64 - 1

/-- `bb |= (1ULL << sq)`. -/
def setBit (bb : Nat) (s : Square) : Nat := bb ||| (1 <<< s.val)

/-- `bb &= ~(1ULL << sq)` (64-bit complement made explicit via `MASK64`). -/
def clearBit (bb : Nat) (s : Square) : Nat := bb &&& (MASK64 ^^^ (1 <<< s.val))

/-- The bitboard/mailbox pair mutated by `placePiece` / `removePiece` /
`movePiece` (fields `piecesBB[12]` and `board[64]` of `Board`). -/
structure Pieces where
  bb : Piece → Nat
  mb : Square → Piece

attribute [ext] Pieces

/-- `Board::removePiece(Piece, Square)` (src/chess.cpp:366-369). -/
def Pieces.rm (P : Pieces) (p : Piece) (s : Square) : Pieces :=
  ⟨Function.update P.bb p (clearBit (P.bb p) s), Function.update P.mb s Piece.None⟩

/-- `Board::placePiece(Piece, Square)` (src/chess.cpp:371-374). -/
def Pieces.pl (P : Pieces) (p : Piece) (s : Square) : Pieces :=
  ⟨Function.update P.bb p (setBit (P.bb p) s), Function.update P.mb s p⟩

/-- `Board::movePiece(Piece, Square, Square)` (src/chess.cpp:376-381). -/
def Pieces.mv (P : Pieces) (p : Piece) (f t : Square) : Pieces :=
  ⟨Function.update P.bb p (setBit (clearBit (P.bb p) f) t),
   Function.update (Function.update P.mb f Piece.None) t p⟩

/-- Modelled from the spec: the Zobrist random-constant tables of the missing
header, kept abstract.  `pieceKey` is the per-(piece, square) constant
(`updateKeyPiece`), `epFileKey` the per-en-passant-file constant
(`updateKeyEnPassant`), `castleKey` the per-castling-rights-configuration
constant (`updateKeyCastling`), `sideKey` the side-to-move constant
(`updateKeySideToMove`). -/
structure Zobrist where
  pieceKey : Piece → Square → Nat
  epFileKey : Nat → Nat
  castleKey : Nat → Nat
  sideKey : Nat

/-- Modelled from the spec: `PawnAttacks(Square, Color)` — the squares a pawn
of the given color on the given square attacks, as a bitboard. -/
def PawnAttacks (s : Square) (c : Color) : Nat :=
  let f := s.val % 8
  match c with
  | Color.White =>
      (if f ≠ 0 ∧ s.val + 7 < 64 then 1 <<< (s.val + 7) else 0) |||
      (if f ≠ 7 ∧ s.val + 9 < 64 then 1 <<< (s.val + 9) else 0)
  | Color.Black =>
      (if f ≠ 7 ∧ 7 ≤ s.val then 1 <<< (s.val - 7) else 0) |||
      (if f ≠ 0 ∧ 9 ≤ s.val then 1 <<< (s.val - 9) else 0)

/-- Modelled from the spec: the castling-right flags of the missing header
(`wk = 1`, `wq = 2`, `bk = 4`, `bq = 8`); rights are the 4-bit union. -/
def wkFlag : Nat := 1
def wqFlag : Nat := 2
def bkFlag : Nat := 4
def bqFlag : Nat := 8

/-- Modelled from the spec: `Board::removeCastlingRightsAll(Color)` —
clear both rights of one color (`castlingRights &= ~(wk | wq)` resp.
`~(bk | bq)`; the complement is written as the 4-bit mask it keeps). -/
def removeCastlingRightsAll (c : Color) (cr : Nat) : Nat :=
  match c with
  | Color.White => cr &&& (bkFlag ||| bqFlag)
  | Color.Black => cr &&& (wkFlag ||| wqFlag)

/-- Modelled from the spec: `Board::removeCastlingRightsRook(Square)` —
a rook moving from / being captured on its home square clears the
corresponding single right (a1 ↦ wq, h1 ↦ wk, a8 ↦ bq, h8 ↦ bk). -/
def removeCastlingRightsRook (s : Square) (cr : Nat) : Nat :=
  if s.val = 0 then cr &&& (wkFlag ||| bkFlag ||| bqFlag)
  else if s.val = 7 then cr &&& (wqFlag ||| bkFlag ||| bqFlag)
  else if s.val = 56 then cr &&& (wkFlag ||| wqFlag ||| bkFlag)
  else if s.val = 63 then cr &&& (wkFlag ||| wqFlag ||| bqFlag)
  else cr

/-- Modelled from the spec: `lsb(U64)` — index of the least significant set
bit (only used to compute the king squares handed to the evaluator; the
result on `0` is irrelevant to the board state and defaults to `0`). -/
def lsbSq (n : Nat) : Square :=
  match (List.range 64).find? (fun i => n.testBit i) with
  | some i => ⟨i % 64, Nat.mod_lt i (by decide)⟩
  | none => ⟨0, by decide⟩

/-- The move descriptor: origin, destination, the piece type carried by the
move encoding (for promotions this is the promoted-to type) and the
promotion flag — the `from(move)`, `to(move)`, `piece(move)`,
`promoted(move)` accessors. -/
structure Move where
  from_sq : Square
  to_sq : Square
  piece : PieceType
  promoted : Bool
deriving DecidableEq

/-- The per-ply history entry `State(enPassant, castling, halfMove, capturedPiece)`. -/
structure State where
  enPassant : Option Square
  castling : Nat
  halfMove : Nat
  capturedPiece : Piece
deriving DecidableEq

/-- The Position State of the engine: the observable fields of `Board`
maintained by the move engine and the loader, plus the three history
stacks.  (The lazily recomputed attack/occupancy caches `occAll`, `occUs`,
`occEnemy`, `enemyEmptyBB`, `pinHV`, `pinD`, `checkMask`, `doubleCheck` and
`seen` are movegen scratch state never read or written by the functions in
`src/chess.cpp`'s move engine and are omitted.)  `NO_SQ` is modelled as
`Option.none`. -/
structure Board where
  piecesBB : Piece → Nat
  board : Square → Piece
  sideToMove : Color
  enPassantSquare : Option Square
  castlingRights : Nat
  halfMoveClock : Nat
  fullMoveNumber : Nat
  hashKey : Nat
  pawnKey : Nat
  stateHistory : List State
  hashHistory : List Nat
  pawnKeyHistory : List Nat

attribute [ext] Board

/-- The `Pieces` view of a board. -/
def Board.pieces (b : Board) : Pieces := ⟨b.piecesBB, b.board⟩

/-- The events the board core can emit into the NNUE evaluator interface
(`nnue.h` is outside `src/`); `refresh` records the board state passed to
`nnue.refresh(*this)`. -/
inductive NNEvent where
  | push
  | pull
  | accAdd (pt : PieceType) (c : Color) (s kW kB : Square)
  | accRemove (pt : PieceType) (c : Color) (s kW kB : Square)
  | accMove (pt : PieceType) (c : Color) (f t kW kB : Square)
  | refresh (bb : Piece → Nat) (mb : Square → Piece)
  | reset

/-- Recognizer for `refresh` events. -/
def NNEvent.isRefreshE : NNEvent → Bool
  | NNEvent.refresh _ _ => true
  | _ => false

/-- Recognizer for incremental piece-move accumulator updates. -/
def NNEvent.isAccMoveE : NNEvent → Bool
  | NNEvent.accMove _ _ _ _ _ _ => true
  | _ => false

/-- `from_sq ^ (static_cast<bool>(sideToMove) * 56)`: the black-relative
mirror of a square used to index `NNUE::KING_BUCKET`. -/
def mirrorSq (c : Color) (s : Square) : Square :=
  sqXor s ⟨colorIdx c * 56, by cases c <;> decide⟩

/-- The king-bucket-crossing predicate of `Board::movePiece<true>`
(src/chess.cpp:412-413) and of the castling branch (src/chess.cpp:230-231):
the king move crosses a bucket boundary of the abstract bucket table `κ`
(`NNUE::KING_BUCKET`) or the central mirror line
(`square_file(from) + square_file(to) == 7`). -/
def crossKing (κ : Square → Nat) (c : Color) (f t : Square) : Prop :=
  κ (mirrorSq c f) ≠ κ (mirrorSq c t) ∨ squareFile f + squareFile t = 7

instance (κ : Square → Nat) (c : Color) (f t : Square) : Decidable (crossKing κ c f t) := by
  unfold crossKing; infer_instance

/-- `removePiece<updateNNUE>` (src/chess.cpp:386-394): same mutation as the
plain version plus an `updateAccumulator<false>` call. -/
def rmN (upd : Bool) (p : Piece) (s kW kB : Square) (P : Pieces) : Pieces × List NNEvent :=
  (P.rm p s, if upd then [NNEvent.accRemove (type_of_piece p) (pieceColorW p) s kW kB] else [])

/-- `placePiece<updateNNUE>` (src/chess.cpp:396-403). -/
def plN (upd : Bool) (p : Piece) (s kW kB : Square) (P : Pieces) : Pieces × List NNEvent :=
  (P.pl p s, if upd then [NNEvent.accAdd (type_of_piece p) (pieceColorW p) s kW kB] else [])

/-- `movePiece<updateNNUE>` (src/chess.cpp:404-420): mutate the bitboard and
mailbox, then either a full refresh (king move crossing a bucket/mirror
boundary) or an incremental accumulator move update. -/
def mvN (upd : Bool) (κ : Square → Nat) (stm : Color) (p : Piece) (f t kW kB : Square)
    (P : Pieces) : Pieces × List NNEvent :=
  let P' := P.mv p f t
  (P',
    if upd then
      if type_of_piece p = PieceType.KING ∧ crossKing κ stm f t then
        [NNEvent.refresh P'.bb P'.mb]
      else
        [NNEvent.accMove (type_of_piece p) (pieceColorW p) f t kW kB]
    else [])

/-- The implicit castling test of `makeMove` (src/chess.cpp:149): a king move
whose capture target is a rook of the same color
(`pt == KING && type_of_piece(capture) == ROOK && colorOf(from_sq) == colorOf(to_sq)`). -/
def isCastlingOf (b : Board) (m : Move) : Prop :=
  m.piece = PieceType.KING ∧ type_of_piece (b.board m.to_sq) = PieceType.ROOK ∧
    colorCode (b.board m.from_sq) = colorCode (b.board m.to_sq)

instance (b : Board) (m : Move) : Decidable (isCastlingOf b m) := by
  unfold isCastlingOf; infer_instance

/-- `file_rank_square(to_sq > from_sq ? FILE_F : FILE_D, square_rank(from_sq))`:
the rook's castling destination (src/chess.cpp:166, 227, 310). -/
def castleRookTo (m : Move) : Square :=
  fileRankSquare (if m.from_sq.val < m.to_sq.val then 5 else 3) (by split <;> decide) m.from_sq

/-- `file_rank_square(to_sq > from_sq ? FILE_G : FILE_C, square_rank(from_sq))`:
the king's castling destination (src/chess.cpp:228, 311). -/
def castleKingTo (m : Move) : Square :=
  fileRankSquare (if m.from_sq.val < m.to_sq.val then 6 else 2) (by split <;> decide) m.from_sq

/-- The en-passant gate of `makeMove` (src/chess.cpp:182-183): after a double
push, an enemy pawn attacks the passed-over square. -/
def epGate (b : Board) (m : Move) : Prop :=
  PawnAttacks (xor8 m.to_sq) b.sideToMove &&&
    b.piecesBB (makePiece PieceType.PAWN (opColor b.sideToMove)) ≠ 0

instance (b : Board) (m : Move) : Decidable (epGate b m) := by
  unfold epGate; infer_instance

/-- The double-push branch condition of `makeMove` (src/chess.cpp:177-188)
under which a new en-passant square is recorded: a pawn move that is not an
en-passant capture, spans 16 squares, and passes the en-passant gate. -/
def dblOf (b : Board) (m : Move) : Prop :=
  m.piece = PieceType.PAWN ∧ ¬ (b.enPassantSquare = some m.to_sq) ∧
    absDiff m.from_sq.val m.to_sq.val = 16 ∧ epGate b m

instance (b : Board) (m : Move) : Decidable (dblOf b m) := by
  unfold dblOf; infer_instance

/-- `Board::makeMove<updateNNUE>` (src/chess.cpp:120-275) as a pure function:
returns the successor board together with the list of evaluator calls made
during the move, in call order.  `κ` is the abstract `NNUE::KING_BUCKET`
table and `z` the abstract Zobrist constants.  The C++ mutates fields in
place; here every intermediate value is named, with source lines noted.
The branches on the moving piece type (lines 173-190) are mutually
exclusive, so the sequential field mutations are written per field. -/
def makeMove (upd : Bool) (κ : Square → Nat) (z : Zobrist) (b : Board) (m : Move) :
    Board × List NNEvent :=
  -- 121-125
  let pt := m.piece
  let stm := b.sideToMove
  let p := makePiece pt stm
  let from_sq := m.from_sq
  let to_sq := m.to_sq
  let capture := b.board to_sq
  -- 141-143: push an evaluator frame
  let tr0 : List NNEvent := if upd then [NNEvent.push] else []
  -- 155-157: un-toggle the outgoing en-passant hash contribution
  let hk1 := match b.enPassantSquare with
    | some e => b.hashKey ^^^ z.epFileKey (squareFile e)
    | none => b.hashKey
  -- 159: toggle out the old castling-rights hash contribution
  let hk2 := hk1 ^^^ z.castleKey b.castlingRights
  -- 161-162: king squares (before any mutation) for the evaluator calls
  let kW := lsbSq (b.piecesBB Piece.WhiteKing)
  let kB := lsbSq (b.piecesBB Piece.BlackKing)
  -- 164-171: the rook's hash moves from to_sq to its castling destination
  -- (the king itself is hashed by the generic origin/destination toggle at 209-211)
  let rook := if stm = Color.White then Piece.WhiteRook else Piece.BlackRook
  let hk3 := if isCastlingOf b m then
      hk2 ^^^ z.pieceKey rook to_sq ^^^ z.pieceKey rook (castleRookTo m)
    else hk2
  -- 173-176: rights lost by moving the king or a rook
  let cr1 :=
    if pt = PieceType.KING then removeCastlingRightsAll stm b.castlingRights
    else if pt = PieceType.ROOK then removeCastlingRightsRook from_sq b.castlingRights
    else b.castlingRights
  -- 179-180: an en-passant capture removes the enemy pawn from the hash
  let hk4 := if pt = PieceType.PAWN ∧ b.enPassantSquare = some to_sq then
      hk3 ^^^ z.pieceKey (makePiece PieceType.PAWN (opColor stm)) (xor8 to_sq)
    else hk3
  -- 181-188: a gated double push records and hashes the new en-passant square
  let epSq : Option Square := if dblOf b m then some (xor8 to_sq) else none
  let hk5 := if dblOf b m then hk4 ^^^ z.epFileKey (squareFile (xor8 to_sq)) else hk4
  -- 192-197: capture effects on hash and rook rights
  let hk6 := if capture ≠ Piece.None ∧ ¬ isCastlingOf b m then
      hk5 ^^^ z.pieceKey capture to_sq
    else hk5
  let cr2 := if capture ≠ Piece.None ∧ ¬ isCastlingOf b m ∧
        type_of_piece capture = PieceType.ROOK then
      removeCastlingRightsRook to_sq cr1
    else cr1
  -- 145 with the resets at 178, 193, 200: half-move clock
  let hmc := if pt = PieceType.PAWN ∨ (capture ≠ Piece.None ∧ ¬ isCastlingOf b m) ∨
        m.promoted = true then 0
    else b.halfMoveClock + 1
  -- 199-216: origin-out / destination-in piece hash; pawn hash
  let hk7 :=
    if m.promoted = true then
      hk6 ^^^ z.pieceKey (makePiece PieceType.PAWN stm) from_sq ^^^ z.pieceKey p to_sq
    else hk6 ^^^ z.pieceKey p from_sq ^^^ z.pieceKey p to_sq
  let pk1 :=
    if m.promoted = true then
      if pt = PieceType.PAWN then
        b.pawnKey ^^^ z.pieceKey (makePiece PieceType.PAWN stm) from_sq ^^^ z.pieceKey p to_sq
      else b.pawnKey
    else if pt = PieceType.PAWN then
      b.pawnKey ^^^ z.pieceKey p from_sq ^^^ z.pieceKey p to_sq
    else b.pawnKey
  -- 218-219: side-to-move hash, new castling-rights hash
  let hk8 := hk7 ^^^ z.sideKey ^^^ z.castleKey cr2
  -- 255-257: an ordinarily captured pawn leaves the pawn hash
  let pk2 :=
    if ¬ isCastlingOf b m ∧ ¬ (pt = PieceType.PAWN ∧ b.enPassantSquare = some to_sq) ∧
        capture ≠ Piece.None ∧ (capture = Piece.WhitePawn ∨ capture = Piece.BlackPawn) then
      pk1 ^^^ z.pieceKey capture to_sq
    else pk1
  -- 225-260: first mutation branch chain
  let P0 := b.pieces
  let step1 : Pieces × List NNEvent :=
    if isCastlingOf b m then
      let kTo := castleKingTo m
      let rTo := castleRookTo m
      if upd ∧ crossKing κ stm from_sq kTo then
        -- 230-238: mutate via the plain helpers, then a full refresh
        let P1 := (((P0.rm p from_sq).rm rook to_sq).pl p kTo).pl rook rTo
        (P1, [NNEvent.refresh P1.bb P1.mb])
      else
        -- 239-245: four incremental updates
        let s1 := rmN upd p from_sq kW kB P0
        let s2 := rmN upd rook to_sq kW kB s1.1
        let s3 := plN upd p kTo kW kB s2.1
        let s4 := plN upd rook rTo kW kB s3.1
        (s4.1, s1.2 ++ s2.2 ++ s3.2 ++ s4.2)
    else if pt = PieceType.PAWN ∧ b.enPassantSquare = some to_sq then
      -- 247-250: remove the en-passant victim
      rmN upd (makePiece PieceType.PAWN (opColor stm)) (xor8 to_sq) kW kB P0
    else if capture ≠ Piece.None ∧ ¬ isCastlingOf b m then
      -- 252-259: remove the captured piece
      rmN upd capture to_sq kW kB P0
    else (P0, [])
  -- 262-272: second mutation branch chain
  let step2 : Pieces × List NNEvent :=
    if m.promoted = true then
      let s1 := rmN upd (makePiece PieceType.PAWN stm) from_sq kW kB step1.1
      let s2 := plN upd p to_sq kW kB s1.1
      (s2.1, s1.2 ++ s2.2)
    else if ¬ isCastlingOf b m then
      mvN upd κ stm p from_sq to_sq kW kB step1.1
    else (step1.1, [])
  -- 137-139 (history pushes), 146, 274: assemble the new state
  ({ piecesBB := step2.1.bb
     board := step2.1.mb
     sideToMove := opColor stm
     enPassantSquare := epSq
     castlingRights := cr2
     halfMoveClock := hmc
     fullMoveNumber := b.fullMoveNumber + 1
     hashKey := hk8
     pawnKey := pk2
     stateHistory := ⟨b.enPassantSquare, b.castlingRights, b.halfMoveClock, capture⟩ ::
       b.stateHistory
     hashHistory := b.hashKey :: b.hashHistory
     pawnKeyHistory := b.pawnKey :: b.pawnKeyHistory },
   tr0 ++ step1.2 ++ step2.2)

/-- The castling test of `unmakeMove` (src/chess.cpp:305), recomputed from
the popped capture field. -/
def unCastle (p capture : Piece) : Prop :=
  (p = Piece.WhiteKing ∧ capture = Piece.WhiteRook) ∨
  (p = Piece.BlackKing ∧ capture = Piece.BlackRook)

instance (p capture : Piece) : Decidable (unCastle p capture) := by
  unfold unCastle; infer_instance

/-- `Square(enPassantSquare + offset)` with `offset = sideToMove == White ? -8 : 8`
(src/chess.cpp:330-331).  The int arithmetic is reduced modulo 64; under the
engine's en-passant invariant the value is already in range (the C++ indexes
the 64-entry board array with it directly). -/
def epVictimSq (stm : Color) (e : Square) : Square :=
  ⟨(((e.val : Int) + (if stm = Color.White then -8 else 8)) % 64).toNat, by
    have h1 : (0 : Int) ≤ ((e.val : Int) + (if stm = Color.White then -8 else 8)) % 64 :=
      Int.emod_nonneg _ (by decide)
    have h2 : ((e.val : Int) + (if stm = Color.White then -8 else 8)) % 64 < 64 :=
      Int.emod_lt_of_pos _ (by decide)
    omega⟩

/-- `Board::unmakeMove<updateNNUE>` (src/chess.cpp:277-336) as a pure
function: pops the three history stacks, restores the irreversible fields,
flips the side to move before reconstructing the moving piece, and inverts
the piece mutation.  The only evaluator call is `nnue.pull()`.  In the
promotion branch the C++ returns early, skipping the en-passant/capture
re-placement block; in the castling branch that block's conditions are both
false (the moving piece type is `KING` and `isCastling` holds), so it is a
no-op there and is written only in the remaining branch. -/
def unmakeMove (upd : Bool) (b : Board) (m : Move) : Board × List NNEvent :=
  -- 278-284: pop state, hash and pawn-hash stacks
  let restore := b.stateHistory.headD ⟨none, 0, 0, Piece.None⟩
  -- 286-288
  let tr : List NNEvent := if upd then [NNEvent.pull] else []
  -- 290-303
  let capture := restore.capturedPiece
  let stm := opColor b.sideToMove
  let pt := m.piece
  let p := makePiece pt stm
  let P0 := b.pieces
  let P1 :=
    if unCastle p capture then
      -- 307-318 (`to_sq` is rebound to the king's destination there)
      let rook := if stm = Color.White then Piece.WhiteRook else Piece.BlackRook
      let rookFromSq := castleRookTo m
      let kTo := castleKingTo m
      (((P0.rm rook rookFromSq).rm p kTo).pl p m.from_sq).pl rook m.to_sq
    else if m.promoted = true then
      -- 319-324: early return after restoring pawn and capture
      let Pa := (P0.rm p m.to_sq).pl (makePiece PieceType.PAWN stm) m.from_sq
      if capture ≠ Piece.None then Pa.pl capture m.to_sq else Pa
    else
      -- 326-335
      let Pa := P0.mv p m.to_sq m.from_sq
      if restore.enPassant = some m.to_sq ∧ pt = PieceType.PAWN then
        Pa.pl (makePiece PieceType.PAWN (opColor stm))
          (epVictimSq stm (restore.enPassant.getD m.to_sq))
      else if capture ≠ Piece.None then Pa.pl capture m.to_sq
      else Pa
  ({ piecesBB := P1.bb
     board := P1.mb
     sideToMove := stm
     enPassantSquare := restore.enPassant
     castlingRights := restore.castling
     halfMoveClock := restore.halfMove
     fullMoveNumber := b.fullMoveNumber - 1
     hashKey := b.hashHistory.headD 0
     pawnKey := b.pawnKeyHistory.headD 0
     stateHistory := b.stateHistory.tail
     hashHistory := b.hashHistory.tail
     pawnKeyHistory := b.pawnKeyHistory.tail }, tr)

/-- The board component of `makeMove`, which is independent of the template
flag and of the bucket table (proved below). -/
def makeMoveB (z : Zobrist) (b : Board) (m : Move) : Board :=
  (makeMove false (fun _ => 0) z b m).1

/-- The board component of `unmakeMove`. -/
def unmakeMoveB (b : Board) (m : Move) : Board :=
  (unmakeMove false b m).1

/-- `Board::makeNullMove` (src/chess.cpp:338-348). -/
def makeNullMove (z : Zobrist) (b : Board) : Board :=
  { b with
    stateHistory := ⟨b.enPassantSquare, b.castlingRights, b.halfMoveClock, Piece.None⟩ ::
      b.stateHistory
    sideToMove := opColor b.sideToMove
    hashKey := match b.enPassantSquare with
      | some e => (b.hashKey ^^^ z.sideKey) ^^^ z.epFileKey (squareFile e)
      | none => b.hashKey ^^^ z.sideKey
    enPassantSquare := none
    fullMoveNumber := b.fullMoveNumber + 1 }

/-- `Board::unmakeNullMove` (src/chess.cpp:350-364). -/
def unmakeNullMove (z : Zobrist) (b : Board) : Board :=
  let restore := b.stateHistory.headD ⟨none, 0, 0, Piece.None⟩
  { b with
    stateHistory := b.stateHistory.tail
    enPassantSquare := restore.enPassant
    castlingRights := restore.castling
    halfMoveClock := restore.halfMove
    hashKey := match restore.enPassant with
      | some e => (b.hashKey ^^^ z.sideKey) ^^^ z.epFileKey (squareFile e)
      | none => b.hashKey ^^^ z.sideKey
    fullMoveNumber := b.fullMoveNumber - 1
    sideToMove := opColor b.sideToMove }

/-- Whitespace test for the descriptor splitter. -/
def isWS (c : Char) : Bool :=
  c = ' ' ∨ c = '\t' ∨ c = '\n' ∨ c = '\r'

/-- Worker for `splitInput`. -/
def splitInputAux : List Char → List Char → List (List Char)
  | [], acc => if acc.isEmpty then [] else [acc.reverse]
  | c :: cs, acc =>
      if isWS c then
        if acc.isEmpty then splitInputAux cs []
        else acc.reverse :: splitInputAux cs []
      else splitInputAux cs (c :: acc)

/-- Modelled from the spec: `splitInput` of the missing header — split the
descriptor string into its whitespace-separated fields. -/
def splitInput (cs : List Char) : List (List Char) := splitInputAux cs []

/-- Modelled from the spec: the `charToPiece` map (`PNBRQK` uppercase White,
lowercase Black). -/
def charToPiece : Char → Option Piece
  | 'P' => some Piece.WhitePawn
  | 'N' => some Piece.WhiteKnight
  | 'B' => some Piece.WhiteBishop
  | 'R' => some Piece.WhiteRook
  | 'Q' => some Piece.WhiteQueen
  | 'K' => some Piece.WhiteKing
  | 'p' => some Piece.BlackPawn
  | 'n' => some Piece.BlackKnight
  | 'b' => some Piece.BlackBishop
  | 'r' => some Piece.BlackRook
  | 'q' => some Piece.BlackQueen
  | 'k' => some Piece.BlackKing
  | _ => none

/-- Modelled from the spec: the `readCastleString` map (`K`, `Q`, `k`, `q` ↦
right flags; anything else is ignored by the loader's loop). -/
def readCastle : Char → Option Nat
  | 'K' => some wkFlag
  | 'Q' => some wqFlag
  | 'k' => some bkFlag
  | 'q' => some bqFlag
  | _ => none

/-- `isdigit` on the characters the loader sees. -/
def isDigitCh (c : Char) : Bool := 48 ≤ c.toNat ∧ c.toNat ≤ 57

/-- Numeric value of a digit character (`curr - '0'`). -/
def digitVal (c : Char) : Nat := c.toNat - 48

/-- Digit run accumulator for the `std::stoi` model. -/
def parseNatAux : List Char → Nat → Nat
  | [], acc => acc
  | c :: cs, acc =>
      if isDigitCh c then parseNatAux cs (acc * 10 + digitVal c) else acc

/-- Modelled from the spec: `std::stoi` on the loader's clock fields — reads
a leading run of digits (failure, modelled as `none`, when the string does
not start with a digit; the C++ throws there). -/
def parseNatStoi : List Char → Option Nat
  | [] => none
  | c :: cs => if isDigitCh c then some (parseNatAux (c :: cs) 0) else none

/-- The piece-placement loop of `Board::applyFen` (src/chess.cpp:65-81):
walk the placement field, placing pieces (and XOR-ing pawns into `pawnKey`,
lines 72-74), skipping empty counts on digits and stepping back 16 squares
on a rank separator.  The square counter is the C++ `Square` enum value,
an `Int`; a placement outside `0..63` is out-of-bounds in the C++ (UB) and
is modelled as `none`.  Unrecognized characters are ignored. -/
def parsePlacement (z : Zobrist) : List Char → Int → Pieces → Nat → Option (Pieces × Nat)
  | [], _, P, pk => some (P, pk)
  | c :: cs, sq, P, pk =>
      match charToPiece c with
      | some piece =>
          if h : 0 ≤ sq ∧ sq < 64 then
            let s : Square := ⟨sq.toNat, by omega⟩
            parsePlacement z cs (sq + 1) (P.pl piece s)
              (if type_of_piece piece = PieceType.PAWN then pk ^^^ z.pieceKey piece s else pk)
          else none
      | none =>
          if c = '/' then parsePlacement z cs (sq - 16) P pk
          else if isDigitCh c then parsePlacement z cs (sq + (digitVal c : Int)) P pk
          else parsePlacement z cs sq P pk

/-- XOR-fold of the per-(piece, square) constants over the occupied squares
of a mailbox. -/
def foldPieceKeys (z : Zobrist) (mb : Square → Piece) : Nat :=
  (List.finRange 64).foldl
    (fun a s => match mb s with
      | Piece.None => a
      | p => a ^^^ z.pieceKey p s) 0

/-- Modelled from the spec: `Board::zobristHash` of the missing header — the
from-scratch key: fold every piece/square contribution, the en-passant file
contribution when an en-passant square is set, the side-to-move constant
when White is to move, and the castling-rights configuration constant. -/
def zobristFold (z : Zobrist) (mb : Square → Piece) (stm : Color) (ep : Option Square)
    (cr : Nat) : Nat :=
  foldPieceKeys z mb ^^^
    (match ep with
      | some e => z.epFileKey (squareFile e)
      | none => 0) ^^^
    (if stm = Color.White then z.sideKey else 0) ^^^
    z.castleKey cr

/-- Modelled from the spec: the from-scratch pawn key — the piece/square fold
restricted to pawns. -/
def pawnFold (z : Zobrist) (mb : Square → Piece) : Nat :=
  (List.finRange 64).foldl
    (fun a s =>
      if mb s = Piece.WhitePawn ∨ mb s = Piece.BlackPawn then a ^^^ z.pieceKey (mb s) s
      else a) 0

/-- The member-initialized board state established by the `Board` constructor
before it calls `applyFen` (src/chess.cpp:16-36): empty mailbox, zero
bitboards, White to move, all four castling rights, no en-passant square,
zero clocks, empty stacks. -/
def Board.init : Board where
  piecesBB := fun _ => 0
  board := fun _ => Piece.None
  sideToMove := Color.White
  enPassantSquare := none
  castlingRights := wkFlag ||| wqFlag ||| bkFlag ||| bqFlag
  halfMoveClock := 0
  fullMoveNumber := 1
  hashKey := 0
  pawnKey := 0
  stateHistory := []
  hashHistory := []
  pawnKeyHistory := []

/-- `Board::applyFen` (src/chess.cpp:44-116) as a pure function on the
pre-existing board `b0`.  Out-of-bounds accesses and failing conversions of
the C++ (`params[i]` past the end of the field vector — note line 59 reads
`params[5]` whenever more than four fields exist — `std::stoi` on a
non-number, board writes outside `0..63`, an en-passant field shorter than
two characters or denoting no square) are modelled as `none`.  On success:
pieces placed from the descriptor onto an emptied board, `pawnKey` folded
over the pawns during placement, castling rights rebuilt from the castling
field, `hashKey` recomputed from scratch, history stacks cleared and seeded
with the initial keys.  (The final `refresh` / `reset_accumulators`
evaluator calls carry no board state and are not modelled for the loader.) -/
def applyFen (z : Zobrist) (fen : List Char) (b0 : Board) : Option Board :=
  let params := splitInput fen
  do
  let position ← params.get? 0
  let move_right ← params.get? 1
  let castling ← params.get? 2
  let en_passant ← params.get? 3
  -- 58-59: note the C++ indexes params[5] under a params.size() > 4 guard
  let half_move_clock ← if params.length > 4 then params.get? 4 else pure ['0']
  let full_move_counter ← if params.length > 4 then params.get? 5 else pure ['1']
  -- 61
  let stm := if move_right = ['w'] then Color.White else Color.Black
  -- 45-49, 63-81: zero the twelve piece bitboards and the pawn key, clear
  -- the mailbox, then run the placement loop from square 56
  let parsed ← parsePlacement z position 56
    ⟨fun p => if p = Piece.None then b0.piecesBB Piece.None else 0, fun _ => Piece.None⟩ 0
  -- 83-89: drop all rights, then fold the castling field
  let cr := castling.foldl
    (fun acc c => match readCastle c with
      | some r => acc ||| r
      | none => acc) 0
  -- 91-98
  let ep ← (if en_passant = ['-'] then pure none else
    match en_passant with
    | c0 :: c1 :: _ =>
        let file : Int := (c0.toNat : Int) - 96
        let rank : Int := (c1.toNat : Int) - 48
        let v : Int := (rank - 1) * 8 + file - 1
        if h : 0 ≤ v ∧ v < 64 then pure (some (⟨v.toNat, by omega⟩ : Square)) else none
    | _ => none)
  -- 100-103
  let hmc ← parseNatStoi half_move_clock
  let fmc ← parseNatStoi full_move_counter
  -- 105-112
  pure { b0 with
    piecesBB := parsed.1.bb
    board := parsed.1.mb
    sideToMove := stm
    enPassantSquare := ep
    castlingRights := cr
    halfMoveClock := hmc
    fullMoveNumber := fmc * 2
    pawnKey := parsed.2
    hashKey := zobristFold z parsed.1.mb stm ep cr
    stateHistory := []
    hashHistory := [zobristFold z parsed.1.mb stm ep cr]
    pawnKeyHistory := [parsed.2] }

/-- `1 <<< n` is `2 ^ n`. -/
theorem one_shiftLeft_eq (n : Nat) : (1 <<< n) = 2 ^ n := by
  rw [Nat.shiftLeft_eq, one_mul]

/-- Bit `i` of `setBit bb s`. -/
theorem testBit_setBit (bb : Nat) (s : Square) (i : Nat) :
    (setBit bb s).testBit i = (bb.testBit i || decide (s.val = i)) := by
  simp [setBit, Nat.testBit_or, one_shiftLeft_eq, Nat.testBit_two_pow]

/-- Bit `i` of the 64-bit mask. -/
theorem testBit_MASK64 (i : Nat) : MASK64.testBit i = decide (i < 64) :=
  Nat.testBit_two_pow_sub_one 64 i

/-- Bit `i` of `clearBit bb s`: the target bit goes to `0` and, the mask
being 64 bits wide, so does everything from bit 64 up. -/
theorem testBit_clearBit (bb : Nat) (s : Square) (i : Nat) :
    (clearBit bb s).testBit i =
      (bb.testBit i && (decide (i < 64) ^^ decide (s.val = i))) := by
  simp only [clearBit, Nat.testBit_and, Nat.testBit_xor, one_shiftLeft_eq,
    Nat.testBit_two_pow, testBit_MASK64]

/-- `setBit` keeps a bitboard inside 64 bits. -/
theorem setBit_lt (bb : Nat) (s : Square) (h : bb < 2 ^ 64) : setBit bb s < 2 ^ 64 := by
  refine Nat.or_lt_two_pow h ?_
  rw [one_shiftLeft_eq]
  exact Nat.pow_lt_pow_right (by norm_num) s.isLt

/-- `clearBit` lands inside 64 bits unconditionally (the mask truncates). -/
theorem clearBit_lt (bb : Nat) (s : Square) : clearBit bb s < 2 ^ 64 := by
  have h1 : clearBit bb s ≤ MASK64 ^^^ (1 <<< s.val) := Nat.and_le_right
  have h2 : MASK64 ^^^ (1 <<< s.val) < 2 ^ 64 := by
    refine Nat.xor_lt_two_pow (by simp [MASK64]) ?_
    rw [one_shiftLeft_eq]
    exact Nat.pow_lt_pow_right (by norm_num) s.isLt
  omega

/-- Bits at positions 64 and above of a 64-bit value are clear. -/
theorem testBit_ge_64 (x : Nat) (h : x < 2 ^ 64) {i : Nat} (hi : 64 ≤ i) :
    x.testBit i = false :=
  Nat.testBit_lt_two_pow (Nat.lt_of_lt_of_le h (Nat.pow_le_pow_right (by norm_num) hi))

/-- Two 64-bit values agreeing on bits `0..63` are equal. -/
theorem bb_ext {a b : Nat} (ha : a < 2 ^ 64) (hb : b < 2 ^ 64)
    (h : ∀ i : Fin 64, a.testBit i.val = b.testBit i.val) : a = b := by
  refine Nat.eq_of_testBit_eq fun i => ?_
  by_cases hi : i < 64
  · exact h ⟨i, hi⟩
  · rw [testBit_ge_64 a ha (by omega), testBit_ge_64 b hb (by omega)]

/-- Pointwise value of `Pieces.rm` on the bitboards. -/
theorem Pieces.rm_bb (P : Pieces) (p : Piece) (s : Square) (q : Piece) :
    (P.rm p s).bb q = if q = p then clearBit (P.bb p) s else P.bb q := by
  simp [Pieces.rm, Function.update_apply]

/-- Pointwise value of `Pieces.rm` on the mailbox. -/
theorem Pieces.rm_mb (P : Pieces) (p : Piece) (s : Square) (t : Square) :
    (P.rm p s).mb t = if t = s then Piece.None else P.mb t := by
  simp [Pieces.rm, Function.update_apply]

/-- Pointwise value of `Pieces.pl` on the bitboards. -/
theorem Pieces.pl_bb (P : Pieces) (p : Piece) (s : Square) (q : Piece) :
    (P.pl p s).bb q = if q = p then setBit (P.bb p) s else P.bb q := by
  simp [Pieces.pl, Function.update_apply]

/-- Pointwise value of `Pieces.pl` on the mailbox. -/
theorem Pieces.pl_mb (P : Pieces) (p : Piece) (s : Square) (t : Square) :
    (P.pl p s).mb t = if t = s then p else P.mb t := by
  simp [Pieces.pl, Function.update_apply]

/-- Pointwise value of `Pieces.mv` on the bitboards. -/
theorem Pieces.mv_bb (P : Pieces) (p : Piece) (f t : Square) (q : Piece) :
    (P.mv p f t).bb q = if q = p then setBit (clearBit (P.bb p) f) t else P.bb q := by
  simp [Pieces.mv, Function.update_apply]

/-- Pointwise value of `Pieces.mv` on the mailbox. -/
theorem Pieces.mv_mb (P : Pieces) (p : Piece) (f t : Square) (u : Square) :
    (P.mv p f t).mb u = if u = t then p else if u = f then Piece.None else P.mb u := by
  simp [Pieces.mv, Function.update_apply]

/-- Board-representation consistency (spec §3): for every square and every
real piece identity, the piece's bitboard has the square's bit set exactly
when the mailbox holds that piece there.  (In particular at most one
piece-identity bitboard has any given bit set, and an empty mailbox entry
means no bitboard has the bit.) -/
def ConsistentP (P : Pieces) : Prop :=
  ∀ (s : Square) (p : Piece), p ≠ Piece.None → ((P.bb p).testBit s.val ↔ P.mb s = p)

/-- All bitboards are 64-bit values. -/
def BoundedP (P : Pieces) : Prop :=
  ∀ p : Piece, P.bb p < 2 ^ 64

/-- Consistency, at the `Board` level. -/
def Board.Consistent (b : Board) : Prop := ConsistentP b.pieces

/-- 64-bit-ness, at the `Board` level. -/
def Board.Bounded (b : Board) : Prop := BoundedP b.pieces

/-- Legality, part 1: the assertion contracts of `makeMove`
(src/chess.cpp:127-131) — distinct squares, promotions carry the
promoted-to type (neither pawn nor king), the king is never a capture
target, and the move carries a real piece type (with which the constructed
moving piece is never `None`, the assert at line 130). -/
def LegalCore (b : Board) (m : Move) : Prop :=
  m.from_sq ≠ m.to_sq
  ∧ (m.promoted = true → m.piece ≠ PieceType.PAWN ∧ m.piece ≠ PieceType.KING)
  ∧ type_of_piece (b.board m.to_sq) ≠ PieceType.KING
  ∧ m.piece ≠ PieceType.NONETYPE

instance (b : Board) (m : Move) : Decidable (LegalCore b m) := by
  unfold LegalCore; infer_instance

/-- Legality, part 2: the moving side has its moving piece on the origin
square (for a promotion, its pawn). -/
def LegalFrom (b : Board) (m : Move) : Prop :=
  b.board m.from_sq =
    (if m.promoted = true then makePiece PieceType.PAWN b.sideToMove
     else makePiece m.piece b.sideToMove)

instance (b : Board) (m : Move) : Decidable (LegalFrom b m) := by
  unfold LegalFrom; infer_instance

/-- Legality, part 3: an ordinary capture target belongs to the enemy. -/
def LegalCapture (b : Board) (m : Move) : Prop :=
  b.board m.to_sq ≠ Piece.None → ¬ isCastlingOf b m →
    colorCode (b.board m.to_sq) = colorIdx (opColor b.sideToMove)

instance (b : Board) (m : Move) : Decidable (LegalCapture b m) := by
  unfold LegalCapture; infer_instance

/-- Legality, part 4: a castling move targets the side's own rook, on the
king's rank, and the two destination squares are empty unless they are the
king's or rook's own current squares. -/
def LegalCastle (b : Board) (m : Move) : Prop :=
  isCastlingOf b m →
    b.board m.to_sq = makePiece PieceType.ROOK b.sideToMove ∧
    squareRank m.from_sq = squareRank m.to_sq ∧
    (castleKingTo m = m.from_sq ∨ castleKingTo m = m.to_sq ∨
      b.board (castleKingTo m) = Piece.None) ∧
    (castleRookTo m = m.from_sq ∨ castleRookTo m = m.to_sq ∨
      b.board (castleRookTo m) = Piece.None)

instance (b : Board) (m : Move) : Decidable (LegalCastle b m) := by
  unfold LegalCastle; infer_instance

/-- Legality, part 5: a pawn move onto the en-passant square is a genuine
en-passant capture — the target square is empty, the enemy pawn stands one
rank behind it (distinct from the origin), and the square lies on the rank
en-passant squares for the mover occupy. -/
def LegalEp (b : Board) (m : Move) : Prop :=
  m.piece = PieceType.PAWN → b.enPassantSquare = some m.to_sq →
    b.board m.to_sq = Piece.None ∧
    b.board (xor8 m.to_sq) = makePiece PieceType.PAWN (opColor b.sideToMove) ∧
    xor8 m.to_sq ≠ m.from_sq ∧
    (b.sideToMove = Color.White → 40 ≤ m.to_sq.val ∧ m.to_sq.val < 48) ∧
    (b.sideToMove = Color.Black → 16 ≤ m.to_sq.val ∧ m.to_sq.val < 24)

instance (b : Board) (m : Move) : Decidable (LegalEp b m) := by
  unfold LegalEp; infer_instance

/-- What the move engine assumes of a legal move handed to `makeMove` from
position `b` (spec §4.5 and §7; the engine does no legality checking and
relies on the external move generator). -/
def LegalPre (b : Board) (m : Move) : Prop :=
  LegalCore b m ∧ LegalFrom b m ∧ LegalCapture b m ∧ LegalCastle b m ∧ LegalEp b m

instance (b : Board) (m : Move) : Decidable (LegalPre b m) := by
  unfold LegalPre; infer_instance

/-- Shape check for the piece-placement field of a well-formed descriptor
(spec §6), following the placement loop: `w` is the number of board columns
consumed in the current rank, `r` the number of completed ranks.  Every
character is a piece letter or an empty count `1..8`, every rank sums to 8
columns, and there are exactly 8 ranks (7 separators). -/
def wfP : List Char → Nat → Nat → Bool
  | [], w, r => w == 8 && r == 7
  | c :: cs, w, r =>
      match charToPiece c with
      | some _ => decide (w + 1 ≤ 8) && wfP cs (w + 1) r
      | none =>
          if c = '/' then decide (w = 8) && wfP cs 0 (r + 1)
          else if isDigitCh c && decide (1 ≤ digitVal c) && decide (digitVal c ≤ 8) then
            decide (w + digitVal c ≤ 8) && wfP cs (w + digitVal c) r
          else false

/-- A descriptor whose placement field is well-formed (spec §6: 8 ranks of
8 columns each). -/
def wellFormedFEN (fen : List Char) : Bool :=
  match splitInput fen with
  | pos :: _ => wfP pos 0 0
  | [] => false

/-- The reachable positions (spec §3 lifecycle): a position loaded from a
well-formed descriptor, or the result of applying a legal move or a null
move to a reachable position.  Unmakes under the spec's strict stack
discipline are included via the `unmk`/`unnull` constructors (an unmake is
only ever called on the state produced by the matching make). -/
inductive Reachable (z : Zobrist) : Board → Prop
  | load (fen : List Char) (b : Board) :
      wellFormedFEN fen = true → applyFen z fen Board.init = some b → Reachable z b
  | mk (b : Board) (m : Move) : Reachable z b → LegalPre b m → Reachable z (makeMoveB z b m)
  | nullmk (b : Board) : Reachable z b → Reachable z (makeNullMove z b)
  | unmk (b : Board) (m : Move) : Reachable z b → LegalPre b m →
      Reachable z (unmakeMoveB (makeMoveB z b m) m)
  | unnull (b : Board) : Reachable z b → Reachable z (unmakeNullMove z (makeNullMove z b))

/-- Flipping the side to move twice is the identity. -/
theorem opColor_opColor (c : Color) : opColor (opColor c) = c := by
  cases c <;> rfl

/-- XOR-ing the same two values out again restores a key. -/
theorem xor_restore (a x y : Nat) : (((a ^^^ x) ^^^ y) ^^^ x) ^^^ y = a := by
  apply Nat.eq_of_testBit_eq
  intro i
  simp only [Nat.testBit_xor]
  cases a.testBit i <;> cases x.testBit i <;> cases y.testBit i <;> rfl

/-- The board component of `makeMove` does not depend on the evaluator flag
or on the bucket table: both template instantiations perform the same
Position State mutation. -/
theorem fst_ite {α β : Type} (c : Prop) [Decidable c] (x y : α × β) :
    (if c then x else y).1 = if c then x.1 else y.1 := by
  split <;> rfl

theorem makeMove_fst (u : Bool) (κ : Square → Nat) (z : Zobrist) (b : Board) (m : Move) :
    (makeMove u κ z b m).1 = makeMoveB z b m := by
  unfold makeMoveB makeMove
  simp only [fst_ite, rmN, plN, mvN, ite_self, Bool.false_eq_true, false_and, if_false]

/-- The board component of `unmakeMove` does not depend on the evaluator
flag. -/
theorem unmakeMove_fst (u : Bool) (b : Board) (m : Move) :
    (unmakeMove u b m).1 = unmakeMoveB b m := rfl

/-- Claim C10 helper: both instantiations of `makeMove` yield the same
board. -/
theorem makeMove_true_eq_false (κ : Square → Nat) (z : Zobrist) (b : Board) (m : Move) :
    (makeMove true κ z b m).1 = (makeMove false κ z b m).1 := by
  rw [makeMove_fst, makeMove_fst]

/-- Claim C9/C1 helper: `makeMoveB` is `makeMove` with any flag/bucket. -/
theorem makeMoveB_eq (u : Bool) (κ : Square → Nat) (z : Zobrist) (b : Board) (m : Move) :
    makeMoveB z b m = (makeMove u κ z b m).1 := (makeMove_fst u κ z b m).symm

/-- Null-move round trip at the board level:
`unmakeNullMove(makeNullMove(P)) = P` on every field, and `makeNullMove`
touches neither the bitboards nor the mailbox. -/
theorem nullMove_roundtrip (z : Zobrist) (b : Board) :
    unmakeNullMove z (makeNullMove z b) = b := by
  obtain ⟨bb, mb, stm, ep, cr, hmc, fmc, hk, pk, sh, hh, ph⟩ := b
  cases ep with
  | none =>
      simp [makeNullMove, unmakeNullMove, opColor_opColor, Nat.xor_cancel_right]
  | some e =>
      simp [makeNullMove, unmakeNullMove, opColor_opColor, xor_restore]

/-- C7: for every position `P`, `unmakeNullMove` after `makeNullMove`
restores every field of `P` — including `hashKey`, the en-passant square,
the castling rights, the half-move clock, the side to move and the
full-move counter (the equality below is of entire `Board` records, history
stacks included) — and the null-move pair performs no bitboard or mailbox
mutation (the evaluator is not involved: the null-move functions take no
evaluator argument in the source). -/
theorem claim_C7_nullmove_roundtrip (z : Zobrist) (b : Board) :
    unmakeNullMove z (makeNullMove z b) = b ∧
    (makeNullMove z b).piecesBB = b.piecesBB ∧
    (makeNullMove z b).board = b.board :=
  ⟨nullMove_roundtrip z b, rfl, rfl⟩

/-- C10: the evaluator-updating and non-evaluator-updating instantiations
of the move engine (`makeMove<true>`/`makeMove<false>` and
`unmakeMove<true>`/`unmakeMove<false>`) produce identical Position State for
every position, move and bucket table: the board components coincide, so
all bitboards, the mailbox, side to move, castling rights, en-passant
square, clocks, `hashKey` and `pawnKey` are equal. -/
theorem claim_C10_template_equiv (κ : Square → Nat) (z : Zobrist) (b : Board) (m : Move) :
    (makeMove true κ z b m).1 = (makeMove false κ z b m).1 ∧
    (unmakeMove true b m).1 = (unmakeMove false b m).1 :=
  ⟨makeMove_true_eq_false κ z b m, rfl⟩

/-- A bitwise AND is nonzero exactly when the two operands share a set bit. -/
theorem and_ne_zero_iff (a c : Nat) : a &&& c ≠ 0 ↔ ∃ i, a.testBit i ∧ c.testBit i := by
  constructor
  · intro h
    by_contra hx
    push_neg at hx
    apply h
    apply Nat.eq_of_testBit_eq
    intro i
    simp only [Nat.testBit_and, Nat.zero_testBit]
    have := hx i
    cases ha : a.testBit i <;> cases hc : c.testBit i <;> simp_all
  · rintro ⟨i, h1, h2⟩ h0
    have := congrArg (fun n => Nat.testBit n i) h0
    simp [Nat.testBit_and, h1, h2] at this

/-- The bits of `PawnAttacks` lie below 64. -/
theorem PawnAttacks_lt (s : Square) (c : Color) : PawnAttacks s c < 2 ^ 64 := by
  have h : ∀ (k : Nat), k < 64 → (1 <<< k) < 2 ^ 64 := fun k hk => by
    rw [one_shiftLeft_eq]; exact Nat.pow_lt_pow_right (by norm_num) hk
  unfold PawnAttacks
  cases c <;> dsimp only <;>
    refine Nat.or_lt_two_pow ?_ ?_ <;> split <;>
      first
        | omega
        | (rename_i hcond; exact h _ (by omega))

/-- The en-passant gate holds exactly when some square attacked by a mover's
pawn standing on the passed-over square carries an enemy pawn — i.e. when an
enemy pawn is positioned to capture en passant (spec §8 wording), stated
over the mailbox via consistency. -/
theorem epGate_iff (b : Board) (m : Move) (hC : b.Consistent) (hB : b.Bounded) :
    epGate b m ↔ ∃ s : Square, (PawnAttacks (xor8 m.to_sq) b.sideToMove).testBit s.val ∧
      b.board s = makePiece PieceType.PAWN (opColor b.sideToMove) := by
  unfold epGate
  rw [and_ne_zero_iff]
  constructor
  · rintro ⟨i, h1, h2⟩
    have hi : i < 64 := by
      by_contra hge
      have hb64 : b.piecesBB (makePiece PieceType.PAWN (opColor b.sideToMove)) < 2 ^ 64 :=
        hB (makePiece PieceType.PAWN (opColor b.sideToMove))
      rw [testBit_ge_64 _ hb64 (i := i) (by omega)] at h2
      exact Bool.false_ne_true h2
    refine ⟨⟨i, hi⟩, h1, ?_⟩
    exact (hC ⟨i, hi⟩ (makePiece PieceType.PAWN (opColor b.sideToMove))
      (by cases b.sideToMove <;> decide)).mp h2
  · rintro ⟨s, h1, h2⟩
    exact ⟨s.val, h1,
      (hC s (makePiece PieceType.PAWN (opColor b.sideToMove))
        (by cases b.sideToMove <;> decide)).mpr h2⟩

/-- The en-passant field produced by `makeMove` on a non-en-passant,
non-promotion pawn move spanning sixteen squares. -/
theorem makeMove_epSquare (z : Zobrist) (b : Board) (m : Move)
    (hpt : m.piece = PieceType.PAWN)
    (hep : b.enPassantSquare ≠ some m.to_sq)
    (h16 : absDiff m.from_sq.val m.to_sq.val = 16) :
    (makeMoveB z b m).enPassantSquare =
      if epGate b m then some (xor8 m.to_sq) else none := by
  have hd : dblOf b m ↔ epGate b m := by
    unfold dblOf
    rw [hpt]
    simp [hep, h16]
  simp only [makeMoveB, makeMove]
  by_cases hg : epGate b m
  · rw [if_pos (hd.mpr hg), if_pos hg]
  · rw [if_neg (fun h => hg (hd.mp h)), if_neg hg]

/-- C4: when `makeMove` applies a two-square pawn advance (a pawn move, not
an en-passant capture, not a promotion, spanning 16 squares),
`enPassantSquare` is set to the passed-over square `to ^ 8` if and only if
an enemy pawn stands on a square from which it could capture en passant;
otherwise it remains unset (`none`) after the move. -/
theorem claim_C4_ep_gating (z : Zobrist) (b : Board) (m : Move)
    (hC : b.Consistent) (hB : b.Bounded)
    (hpt : m.piece = PieceType.PAWN) (hpr : m.promoted = false)
    (hep : b.enPassantSquare ≠ some m.to_sq)
    (h16 : absDiff m.from_sq.val m.to_sq.val = 16) :
    ((makeMoveB z b m).enPassantSquare = some (xor8 m.to_sq) ↔
      ∃ s : Square, (PawnAttacks (xor8 m.to_sq) b.sideToMove).testBit s.val ∧
        b.board s = makePiece PieceType.PAWN (opColor b.sideToMove)) ∧
    ((makeMoveB z b m).enPassantSquare = some (xor8 m.to_sq) ∨
      (makeMoveB z b m).enPassantSquare = none) := by
  have _hpr := hpr
  rw [makeMove_epSquare z b m hpt hep h16]
  rw [← epGate_iff b m hC hB]
  by_cases hg : epGate b m
  · simp [hg]
  · simp [hg]

/-- The White king-side castling move of the example scenario: king e1
(square 4) "captures" its own rook on h1 (square 7). -/
def wkCastleMove : Move :=
  { from_sq := 4, to_sq := 7, piece := PieceType.KING, promoted := false }

/-- C6: applying the White king-side castling move (king e1, own rook h1 —
castling is encoded as the king capturing its own rook) with White to move
and the king-side right present clears both of White's castling rights
(the new rights are the old ones masked to the Black flags), places the
White king on g1 and the White rook on f1 (mailbox and bitboards), empties
e1 and h1, and leaves Black's rights unchanged. -/
theorem claim_C6_white_kingside_castle (z : Zobrist) (b : Board)
    (hstm : b.sideToMove = Color.White)
    (hk : b.board 4 = Piece.WhiteKing)
    (hr : b.board 7 = Piece.WhiteRook)
    (hright : b.castlingRights &&& wkFlag ≠ 0) :
    (makeMoveB z b wkCastleMove).castlingRights =
        b.castlingRights &&& (bkFlag ||| bqFlag) ∧
    (makeMoveB z b wkCastleMove).board 6 = Piece.WhiteKing ∧
    (makeMoveB z b wkCastleMove).board 5 = Piece.WhiteRook ∧
    (makeMoveB z b wkCastleMove).board 4 = Piece.None ∧
    (makeMoveB z b wkCastleMove).board 7 = Piece.None ∧
    ((makeMoveB z b wkCastleMove).piecesBB Piece.WhiteKing).testBit 6 = true ∧
    ((makeMoveB z b wkCastleMove).piecesBB Piece.WhiteRook).testBit 5 = true ∧
    (makeMoveB z b wkCastleMove).castlingRights &&& (bkFlag ||| bqFlag) =
        b.castlingRights &&& (bkFlag ||| bqFlag) := by
  have _hright := hright
  have hC : isCastlingOf b wkCastleMove := by
    refine ⟨rfl, ?_, ?_⟩
    · show type_of_piece (b.board 7) = PieceType.ROOK
      rw [hr]
      rfl
    · show colorCode (b.board 4) = colorCode (b.board 7)
      rw [hk, hr]
      rfl
  have hkt : castleKingTo wkCastleMove = (6 : Square) := by decide
  have hrt : castleRookTo wkCastleMove = (5 : Square) := by decide
  have hcap : b.board wkCastleMove.to_sq = Piece.WhiteRook := hr
  have hps : wkCastleMove.piece = PieceType.KING := rfl
  have hfs : wkCastleMove.from_sq = (4 : Square) := rfl
  have hts : wkCastleMove.to_sq = (7 : Square) := rfl
  have hpm : wkCastleMove.promoted = false := rfl
  have hdbl : ¬ dblOf b wkCastleMove := fun h => absurd h.1 (by decide)
  simp only [makeMoveB, makeMove, fst_ite, rmN, plN, mvN, ite_self, Bool.false_eq_true,
    false_and, if_false, hC, hkt, hrt, hstm, hcap, hps, hfs, hts, hpm, hdbl, not_true,
    and_false, if_true, ite_true, ite_false, reduceCtorEq, and_true, true_and,
    not_false_iff]
  have d45 : ((4 : Square) = 5) = False := by decide
  have d46 : ((4 : Square) = 6) = False := by decide
  have d47 : ((4 : Square) = 7) = False := by decide
  have d54 : ((5 : Square) = 4) = False := by decide
  have d56 : ((5 : Square) = 6) = False := by decide
  have d57 : ((5 : Square) = 7) = False := by decide
  have d64 : ((6 : Square) = 4) = False := by decide
  have d65 : ((6 : Square) = 5) = False := by decide
  have d67 : ((6 : Square) = 7) = False := by decide
  have d74 : ((7 : Square) = 4) = False := by decide
  have d75 : ((7 : Square) = 5) = False := by decide
  have d76 : ((7 : Square) = 6) = False := by decide
  have dKR : (Piece.WhiteKing = Piece.WhiteRook) = False := by decide
  have dRK : (Piece.WhiteRook = Piece.WhiteKing) = False := by decide
  have v4 : ((4 : Square) : Nat) = 4 := rfl
  have v5 : ((5 : Square) : Nat) = 5 := rfl
  have v6 : ((6 : Square) : Nat) = 6 := rfl
  have v7 : ((7 : Square) : Nat) = 7 := rfl
  refine ⟨?_, ?_, ?_, ?_, ?_, ?_, ?_, ?_⟩
  all_goals
    simp [removeCastlingRightsAll, Pieces.pl_mb, Pieces.rm_mb, Pieces.pl_bb, Pieces.rm_bb,
      Board.pieces, testBit_setBit, makePiece, ptIdx, colorIdx, pieceOfIdx,
      d45, d46, d47, d54, d56, d57, d64, d65, d67, d74, d75, d76, dKR, dRK,
      v4, v5, v6, v7, Nat.and_assoc, Nat.and_self]

/-- A constructed king has piece type `KING`. -/
theorem type_makePiece_king (c : Color) :
    type_of_piece (makePiece PieceType.KING c) = PieceType.KING := by
  cases c <;> rfl

/-- C5: for every king move applied by `makeMove` with evaluator updates
enabled — castling included — if the move crosses a king-bucket boundary of
the bucket table `κ` or the board's central mirroring line (the test being
taken at the king's true destination: `castleKingTo` for castling, the move
target otherwise), then the evaluator trace contains a full `refresh`, that
`refresh` is the last evaluator call and carries the fully mutated board
(the final bitboards and mailbox), and no incremental piece-move
accumulator update is issued anywhere in the move. -/
theorem claim_C5_king_bucket_refresh (κ : Square → Nat) (z : Zobrist) (b : Board) (m : Move)
    (hpt : m.piece = PieceType.KING) (hpr : m.promoted = false)
    (hX : crossKing κ b.sideToMove m.from_sq
      (if isCastlingOf b m then castleKingTo m else m.to_sq)) :
    ((makeMove true κ z b m).2.any NNEvent.isRefreshE = true) ∧
    ((makeMove true κ z b m).2.all (fun e => !(NNEvent.isAccMoveE e)) = true) ∧
    (∃ pre, (makeMove true κ z b m).2 =
      pre ++ [NNEvent.refresh ((makeMove true κ z b m).1.piecesBB)
                              ((makeMove true κ z b m).1.board)]) := by
  have hKt : type_of_piece (makePiece m.piece b.sideToMove) = PieceType.KING := by
    rw [hpt]; exact type_makePiece_king b.sideToMove
  have hnd : ¬ dblOf b m := by
    intro h
    have h1 := h.1
    rw [hpt] at h1
    exact absurd h1 (by decide)
  by_cases hC : isCastlingOf b m
  · rw [if_pos hC] at hX
    refine ⟨?_, ?_, ⟨[NNEvent.push], ?_⟩⟩ <;>
      simp [makeMove, rmN, plN, mvN, hC, hX, hpt, hpr, hnd,
        NNEvent.isRefreshE, NNEvent.isAccMoveE]
  · rw [if_neg hC] at hX
    by_cases hcap : b.board m.to_sq ≠ Piece.None
    · refine ⟨?_, ?_,
        ⟨[NNEvent.push,
          NNEvent.accRemove (type_of_piece (b.board m.to_sq)) (pieceColorW (b.board m.to_sq))
            m.to_sq (lsbSq (b.piecesBB Piece.WhiteKing)) (lsbSq (b.piecesBB Piece.BlackKing))],
         ?_⟩⟩ <;>
        simp [makeMove, rmN, plN, mvN, hC, hX, type_makePiece_king, hpt, hpr, hnd, hcap,
          NNEvent.isRefreshE, NNEvent.isAccMoveE]
    · refine ⟨?_, ?_, ⟨[NNEvent.push], ?_⟩⟩ <;>
        simp [makeMove, rmN, plN, mvN, hC, hX, type_makePiece_king, hpt, hpr, hnd, hcap,
          NNEvent.isRefreshE, NNEvent.isAccMoveE]


/-- The all-zero Zobrist table (a legitimate instantiation of the abstract
constants, used for concrete evaluations that do not involve keys). -/
def zZero : Zobrist := ⟨fun _ _ => 0, fun _ => 0, fun _ => 0, 0⟩

/-- A descriptor with exactly five fields: the optional half-move clock is
present, the move counter is absent. -/
def fenFiveFields : List Char :=
  "rnbqkbnr/pppppppp/8/8/8/8/PPPPPPPP/RNBQKBNR w KQkq - 0".toList

/-- A descriptor with exactly four fields: both trailing fields absent. -/
def fenFourFields : List Char :=
  "rnbqkbnr/pppppppp/8/8/8/8/PPPPPPPP/RNBQKBNR w KQkq -".toList

/-- C8: on a well-formed descriptor with exactly five fields the loader does
not complete — `applyFen` evaluates `params[5]` on a five-element field
vector (src/chess.cpp:59, an out-of-bounds read, modelled as `none`) —
whereas the claim requires it to complete with the move counter defaulted
to 1.  With exactly four fields both defaults do apply: half-move clock 0
and move counter 1, stored internally as `fullMoveNumber = 2`. -/
theorem claim_C8_trailing_fields :
    (applyFen zZero fenFiveFields Board.init).isNone = true ∧
    (applyFen zZero fenFourFields Board.init).map
      (fun b => (b.halfMoveClock, b.fullMoveNumber)) = some (0, 2) :=
  ⟨by decide, by decide⟩

/-- A Zobrist instantiation whose only nonzero constant is the White pawn's
key on a7 (square 48). -/
def zPawnA7 : Zobrist :=
  ⟨fun p s => if p = Piece.WhitePawn ∧ s.val = 48 then 1 else 0, fun _ => 0, fun _ => 0, 0⟩

/-- A position with a White pawn on a7 about to promote. -/
def fenPromo : List Char := "8/P6k/8/8/8/8/8/K7 w - - 0 1".toList

/-- The board loaded from `fenPromo`. -/
def bPromo : Board := (applyFen zPawnA7 fenPromo Board.init).getD Board.init

/-- The promotion move a7–a8=Q (the move's piece type is the promoted-to
type, `QUEEN`). -/
def mPromo : Move := ⟨48, 56, PieceType.QUEEN, true⟩

/-- C3: on a promotion, `makeMove` leaves `pawnKey` entirely unchanged —
the update at src/chess.cpp:205-208 is guarded by `pt == PAWN`, which the
promotion contract (assert line 131: a promotion's piece type is the
promoted-to type, never `PAWN`) makes unsatisfiable — so the origin pawn's
contribution is *not* XOR-ed out, contradicting the claim.  Concretely:
from `bPromo` (whose `pawnKey` is `1`, the a7-pawn's key) the legal
promotion `mPromo` yields `pawnKey = 1` again, not the claimed
`pawnKey ^^^ pieceKey(WhitePawn, a7) = 0`. -/
theorem claim_C3_promotion_pawnKey :
    LegalPre bPromo mPromo ∧
    bPromo.pawnKey = 1 ∧
    (makeMoveB zPawnA7 bPromo mPromo).pawnKey = bPromo.pawnKey ∧
    bPromo.pawnKey ^^^ zPawnA7.pieceKey Piece.WhitePawn 48 ≠
      (makeMoveB zPawnA7 bPromo mPromo).pawnKey :=
  ⟨by decide, by decide, by decide, by decide⟩

/-- A Zobrist instantiation whose only nonzero constant is the White king's
key on g1 (square 6). -/
def zKingG1 : Zobrist :=
  ⟨fun p s => if p = Piece.WhiteKing ∧ s.val = 6 then 1 else 0, fun _ => 0, fun _ => 0, 0⟩

/-- A position where White can castle king-side. -/
def fenCastle : List Char := "4k3/8/8/8/8/8/8/4K2R w K - 0 1".toList

/-- The board loaded from `fenCastle`. -/
def bCastle : Board := (applyFen zKingG1 fenCastle Board.init).getD Board.init

/-- C2: the incrementally maintained keys diverge from the from-scratch
folds on reachable positions.  (1) After the legal promotion `mPromo` from
the loaded position `bPromo` — a reachable position — `pawnKey` still
contains the vanished a7 pawn's contribution, so it differs from the pawn
fold over the resulting board (the promotion branch never touches
`pawnKey`; see C3).  (2) After the legal castling move from `bCastle`,
`hashKey` differs from the from-scratch fold: `makeMove` hashes the king
from e1 to the *rook's* square h1 (the generic origin/destination toggle at
src/chess.cpp:210-211 uses `to_sq`), while the king actually lands on g1. -/
theorem claim_C2_key_fold_divergence :
    (Reachable zPawnA7 (makeMoveB zPawnA7 bPromo mPromo) ∧
      (makeMoveB zPawnA7 bPromo mPromo).pawnKey ≠
        pawnFold zPawnA7 (makeMoveB zPawnA7 bPromo mPromo).board) ∧
    (Reachable zKingG1 (makeMoveB zKingG1 bCastle wkCastleMove) ∧
      (makeMoveB zKingG1 bCastle wkCastleMove).hashKey ≠
        zobristFold zKingG1 (makeMoveB zKingG1 bCastle wkCastleMove).board
          (makeMoveB zKingG1 bCastle wkCastleMove).sideToMove
          (makeMoveB zKingG1 bCastle wkCastleMove).enPassantSquare
          (makeMoveB zKingG1 bCastle wkCastleMove).castlingRights) := by
  refine ⟨⟨?_, by decide⟩, ⟨?_, by decide⟩⟩
  · exact Reachable.mk bPromo mPromo
      (Reachable.load fenPromo bPromo (by decide) rfl) (by decide)
  · exact Reachable.mk bCastle wkCastleMove
      (Reachable.load fenCastle bCastle (by decide) rfl) (by decide)

/-- `Pieces.rm` keeps bitboards 64-bit. -/
theorem BoundedP.rmB {P : Pieces} (hB : BoundedP P) (p : Piece) (s : Square) :
    BoundedP (P.rm p s) := by
  intro q
  rw [Pieces.rm_bb]
  split
  · exact clearBit_lt _ _
  · exact hB q

/-- `Pieces.pl` keeps bitboards 64-bit. -/
theorem BoundedP.plB {P : Pieces} (hB : BoundedP P) (p : Piece) (s : Square) :
    BoundedP (P.pl p s) := by
  intro q
  rw [Pieces.pl_bb]
  split
  · exact setBit_lt _ _ (hB p)
  · exact hB q

/-- `Pieces.mv` keeps bitboards 64-bit. -/
theorem BoundedP.mvB {P : Pieces} (hB : BoundedP P) (p : Piece) (f t : Square) :
    BoundedP (P.mv p f t) := by
  intro q
  rw [Pieces.mv_bb]
  split
  · exact setBit_lt _ _ (clearBit_lt _ _)
  · exact hB q

/-- An occupied square's bit is set in the occupant's bitboard. -/
theorem ConsistentP.bit_of_mb {P : Pieces} (hC : ConsistentP P) {s : Square} {p : Piece}
    (h : P.mb s = p) (hp : p ≠ Piece.None) : (P.bb p).testBit s.val = true :=
  (hC s p hp).mpr h

/-- A square not holding `p` has a clear bit in `p`'s bitboard. -/
theorem ConsistentP.bit_of_mb_ne {P : Pieces} (hC : ConsistentP P) {s : Square} {p : Piece}
    (h : P.mb s ≠ p) (hp : p ≠ Piece.None) : (P.bb p).testBit s.val = false := by
  cases hbit : (P.bb p).testBit s.val
  · rfl
  · exact absurd ((hC s p hp).mp hbit) h

/-- Placing a piece on an empty square preserves consistency. -/
theorem ConsistentP.plP {P : Pieces} (hC : ConsistentP P) {p : Piece} {s : Square}
    (hp : p ≠ Piece.None) (hs : P.mb s = Piece.None) : ConsistentP (P.pl p s) := by
  intro t q hq
  rw [Pieces.pl_bb, Pieces.pl_mb]
  by_cases hqp : q = p
  · subst hqp
    rw [if_pos rfl, testBit_setBit]
    by_cases hts : t = s
    · subst hts
      simp
    · have hv : ¬ s.val = t.val := fun h => hts (Fin.ext h.symm)
      simp only [hv, decide_False, Bool.or_false, if_neg hts]
      exact hC t q hq
  · rw [if_neg hqp]
    by_cases hts : t = s
    · subst hts
      rw [if_pos rfl, hC t q hq, hs]
      exact ⟨fun h => absurd h.symm hq, fun h => absurd h.symm hqp⟩
    · rw [if_neg hts]
      exact hC t q hq

/-- Removing the occupant of a square preserves consistency. -/
theorem ConsistentP.rmP {P : Pieces} (hC : ConsistentP P) {p : Piece} {s : Square}
    (hs : P.mb s = p) : ConsistentP (P.rm p s) := by
  intro t q hq
  rw [Pieces.rm_bb, Pieces.rm_mb]
  by_cases hqp : q = p
  · subst hqp
    rw [if_pos rfl, testBit_clearBit]
    by_cases hts : t = s
    · subst hts
      simp only [t.isLt, decide_True, Bool.true_xor, decide_eq_true_eq, if_pos rfl]
      simp only [Bool.not_true, Bool.and_false]
      exact ⟨fun h => absurd h (by simp), fun h => absurd h.symm hq⟩
    · have hv : ¬ s.val = t.val := fun h => hts (Fin.ext h.symm)
      simp only [hv, decide_False, t.isLt, decide_True, Bool.true_xor, Bool.not_false,
        Bool.and_true, if_neg hts]
      exact hC t q hq
  · rw [if_neg hqp]
    by_cases hts : t = s
    · subst hts
      rw [if_pos rfl, hC t q hq, hs]
      exact ⟨fun h => absurd h.symm hqp, fun h => absurd h.symm hq⟩
    · rw [if_neg hts]
      exact hC t q hq

/-- Moving a piece from its square to an empty square preserves consistency. -/
theorem ConsistentP.mvP {P : Pieces} (hC : ConsistentP P) {p : Piece} {f t : Square}
    (hp : p ≠ Piece.None) (hf : P.mb f = p) (ht : P.mb t = Piece.None) :
    ConsistentP (P.mv p f t) := by
  intro u q hq
  rw [Pieces.mv_bb, Pieces.mv_mb]
  by_cases hqp : q = p
  · subst hqp
    rw [if_pos rfl, testBit_setBit, testBit_clearBit]
    by_cases hut : u = t
    · subst hut
      simp
    · have hv : ¬ t.val = u.val := fun h => hut (Fin.ext h.symm)
      simp only [hv, decide_False, Bool.or_false, if_neg hut]
      by_cases huf : u = f
      · subst huf
        simp only [decide_True, u.isLt, Bool.true_xor, Bool.not_true, Bool.and_false,
          if_pos rfl]
        exact ⟨fun h => absurd h (by simp), fun h => absurd h.symm hq⟩
      · have hv2 : ¬ f.val = u.val := fun h => huf (Fin.ext h.symm)
        simp only [hv2, decide_False, u.isLt, decide_True, Bool.true_xor, Bool.not_false,
          Bool.and_true, if_neg huf]
        exact hC u q hq
  · rw [if_neg hqp]
    by_cases hut : u = t
    · subst hut
      rw [if_pos rfl, hC u q hq, ht]
      exact ⟨fun h => absurd h.symm hq, fun h => absurd h.symm hqp⟩
    · rw [if_neg hut]
      by_cases huf : u = f
      · subst huf
        rw [if_pos rfl, hC u q hq, hf]
        exact ⟨fun h => absurd h.symm hqp, fun h => absurd h.symm hq⟩
      · rw [if_neg huf]
        exact hC u q hq

/-- Moving a bit out and back (`mv` then the inverse `mv`, or `rm`/`pl` at
two squares) restores the bitboard. -/
theorem bb_mv_restore (bb : Nat) (hb : bb < 2 ^ 64) (f t : Square)
    (hf : bb.testBit f.val = true) (ht : t = f ∨ bb.testBit t.val = false) :
    setBit (clearBit (setBit (clearBit bb f) t) t) f = bb := by
  refine bb_ext (setBit_lt _ _ (clearBit_lt _ _)) hb fun i => ?_
  simp only [testBit_setBit, testBit_clearBit, i.isLt, decide_True, Bool.true_xor]
  by_cases hfi : f.val = i.val
  · simp only [hfi, decide_True, Bool.or_true]
    rw [← hfi, hf]
  · simp only [hfi, decide_False, Bool.or_false, Bool.not_false, Bool.and_true]
    by_cases hti : t.val = i.val
    · simp only [hti, decide_True, Bool.or_true, Bool.not_true, Bool.and_false]
      rcases ht with ht | ht
      · exact absurd (ht ▸ hti) hfi
      · rw [← hti, ht]
    · simp only [hti, decide_False, Bool.or_false, Bool.not_false, Bool.and_true]

/-- Clearing a freshly set bit restores the bitboard. -/
theorem bb_pl_rm_restore (bb : Nat) (hb : bb < 2 ^ 64) (s : Square)
    (hs : bb.testBit s.val = false) : clearBit (setBit bb s) s = bb := by
  refine bb_ext (clearBit_lt _ _) hb fun i => ?_
  simp only [testBit_setBit, testBit_clearBit, i.isLt, decide_True, Bool.true_xor]
  by_cases hsi : s.val = i.val
  · simp only [hsi, decide_True, Bool.not_true, Bool.and_false]
    rw [← hsi, hs]
  · simp only [hsi, decide_False, Bool.or_false, Bool.not_false, Bool.and_true]

/-- Setting a freshly cleared bit restores the bitboard. -/
theorem bb_rm_pl_restore (bb : Nat) (hb : bb < 2 ^ 64) (s : Square)
    (hs : bb.testBit s.val = true) : setBit (clearBit bb s) s = bb := by
  refine bb_ext (setBit_lt _ _ (clearBit_lt _ _)) hb fun i => ?_
  simp only [testBit_setBit, testBit_clearBit, i.isLt, decide_True, Bool.true_xor]
  by_cases hsi : s.val = i.val
  · simp only [hsi, decide_True, Bool.or_true]
    rw [← hsi, hs]
  · simp only [hsi, decide_False, Bool.or_false, Bool.not_false, Bool.and_true]

/-- Round trip of the piece mutation for a quiet move: moving `p` from `f`
to the empty square `t` and back restores the bitboard/mailbox pair. -/
theorem pieces_roundtrip_quiet (P : Pieces) (hC : ConsistentP P) (hB : BoundedP P)
    (p : Piece) (f t : Square) (hp : p ≠ Piece.None) (hft : f ≠ t)
    (hf : P.mb f = p) (ht : P.mb t = Piece.None) :
    (P.mv p f t).mv p t f = P := by
  refine Pieces.ext ?_ ?_
  · funext q
    by_cases hq : q = p
    · subst hq
      simp only [Pieces.mv_bb, eq_self_iff_true, if_true]
      exact bb_mv_restore (P.bb q) (hB q) f t (hC.bit_of_mb hf hp)
        (Or.inr (hC.bit_of_mb_ne (by rw [ht]; exact fun h => hp h.symm) hp))
    · simp only [Pieces.mv_bb, if_neg hq]
  · funext u
    by_cases huf : u = f
    · subst huf
      simp only [Pieces.mv_mb, eq_self_iff_true, if_true, hf]
    · by_cases hut : u = t
      · subst hut
        simp only [Pieces.mv_mb, eq_self_iff_true, if_true, if_neg huf, ht]
      · simp only [Pieces.mv_mb, if_neg huf, if_neg hut]

/-- Round trip of the piece mutation for an ordinary capture: removing the
enemy occupant `c` of `t`, moving `p` from `f` to `t`, then moving back and
re-placing `c` restores the pair. -/
theorem pieces_roundtrip_capture (P : Pieces) (hC : ConsistentP P) (hB : BoundedP P)
    (p c : Piece) (f t : Square) (hp : p ≠ Piece.None) (hc : c ≠ Piece.None)
    (hpc : p ≠ c) (hft : f ≠ t) (hf : P.mb f = p) (ht : P.mb t = c) :
    ((((P.rm c t).mv p f t).mv p t f).pl c t) = P := by
  refine Pieces.ext ?_ ?_
  · funext q
    by_cases hqc : q = c
    · subst hqc
      simp only [Pieces.pl_bb, Pieces.rm_bb, Pieces.mv_bb, eq_self_iff_true, if_true,
        if_neg (show ¬ q = p from fun h => hpc h.symm)]
      exact bb_rm_pl_restore (P.bb q) (hB q) t (hC.bit_of_mb ht hc)
    · by_cases hqp : q = p
      · subst hqp
        simp only [Pieces.pl_bb, Pieces.rm_bb, Pieces.mv_bb, eq_self_iff_true, if_true,
          if_neg hqc]
        exact bb_mv_restore (P.bb q) (hB q) f t (hC.bit_of_mb hf hp)
          (Or.inr (hC.bit_of_mb_ne (by rw [ht]; exact fun h => hqc h.symm) hp))
      · simp only [Pieces.pl_bb, Pieces.rm_bb, Pieces.mv_bb, if_neg hqc, if_neg hqp]
  · funext u
    by_cases hut : u = t
    · subst hut
      simp only [Pieces.pl_mb, Pieces.rm_mb, Pieces.mv_mb, eq_self_iff_true, if_true, ht]
    · by_cases huf : u = f
      · subst huf
        simp only [Pieces.pl_mb, Pieces.rm_mb, Pieces.mv_mb, eq_self_iff_true, if_true,
          if_neg hut, hf]
      · simp only [Pieces.pl_mb, Pieces.rm_mb, Pieces.mv_mb, if_neg hut, if_neg huf]

/-- Round trip of the piece mutation for an en-passant capture: removing
the enemy pawn `e` on `v`, moving `p` from `f` to the (empty) en-passant
square `t`, then moving back and re-placing `e` on `v` restores the pair. -/
theorem pieces_roundtrip_ep (P : Pieces) (hC : ConsistentP P) (hB : BoundedP P)
    (p e : Piece) (f t v : Square) (hp : p ≠ Piece.None) (he : e ≠ Piece.None)
    (hpe : p ≠ e) (hft : f ≠ t) (hvf : v ≠ f) (hvt : v ≠ t)
    (hf : P.mb f = p) (ht : P.mb t = Piece.None) (hv : P.mb v = e) :
    ((((P.rm e v).mv p f t).mv p t f).pl e v) = P := by
  refine Pieces.ext ?_ ?_
  · funext q
    by_cases hqe : q = e
    · subst hqe
      simp only [Pieces.pl_bb, Pieces.rm_bb, Pieces.mv_bb, eq_self_iff_true, if_true,
        if_neg (show ¬ q = p from fun h => hpe h.symm)]
      exact bb_rm_pl_restore (P.bb q) (hB q) v (hC.bit_of_mb hv he)
    · by_cases hqp : q = p
      · subst hqp
        simp only [Pieces.pl_bb, Pieces.rm_bb, Pieces.mv_bb, eq_self_iff_true, if_true,
          if_neg hqe]
        exact bb_mv_restore (P.bb q) (hB q) f t (hC.bit_of_mb hf hp)
          (Or.inr (hC.bit_of_mb_ne (by rw [ht]; exact fun h => hp h.symm) hp))
      · simp only [Pieces.pl_bb, Pieces.rm_bb, Pieces.mv_bb, if_neg hqe, if_neg hqp]
  · funext u
    by_cases huv : u = v
    · subst huv
      simp only [Pieces.pl_mb, Pieces.rm_mb, Pieces.mv_mb, eq_self_iff_true, if_true, hv]
    · by_cases huf : u = f
      · subst huf
        simp only [Pieces.pl_mb, Pieces.rm_mb, Pieces.mv_mb, eq_self_iff_true, if_true,
          if_neg huv, hf]
      · by_cases hut : u = t
        · subst hut
          simp only [Pieces.pl_mb, Pieces.rm_mb, Pieces.mv_mb, eq_self_iff_true, if_true,
            if_neg huv, if_neg huf, ht]
        · simp only [Pieces.pl_mb, Pieces.rm_mb, Pieces.mv_mb, if_neg huv, if_neg huf,
            if_neg hut]

/-- Round trip of the piece mutation for a quiet promotion: removing the
pawn `w` from `f`, placing the promoted piece `p` on the empty square `t`,
then removing `p` and re-placing `w` restores the pair. -/
theorem pieces_roundtrip_promo (P : Pieces) (hC : ConsistentP P) (hB : BoundedP P)
    (w p : Piece) (f t : Square) (hw : w ≠ Piece.None) (hp : p ≠ Piece.None)
    (hwp : w ≠ p) (hft : f ≠ t) (hf : P.mb f = w) (ht : P.mb t = Piece.None) :
    ((((P.rm w f).pl p t).rm p t).pl w f) = P := by
  refine Pieces.ext ?_ ?_
  · funext q
    by_cases hqw : q = w
    · subst hqw
      simp only [Pieces.pl_bb, Pieces.rm_bb, eq_self_iff_true, if_true,
        if_neg (show ¬ q = p from fun h => hwp h)]
      exact bb_rm_pl_restore (P.bb q) (hB q) f (hC.bit_of_mb hf hw)
    · by_cases hqp : q = p
      · subst hqp
        simp only [Pieces.pl_bb, Pieces.rm_bb, eq_self_iff_true, if_true,
          if_neg (show ¬ q = w from fun h => hqw h)]
        exact bb_pl_rm_restore (P.bb q) (hB q) t
          (hC.bit_of_mb_ne (by rw [ht]; exact fun h => hp h.symm) hp)
      · simp only [Pieces.pl_bb, Pieces.rm_bb, if_neg hqw, if_neg hqp]
  · funext u
    by_cases huf : u = f
    · subst huf
      simp only [Pieces.pl_mb, Pieces.rm_mb, eq_self_iff_true, if_true, hf]
    · by_cases hut : u = t
      · subst hut
        simp only [Pieces.pl_mb, Pieces.rm_mb, eq_self_iff_true, if_true, if_neg huf, ht]
      · simp only [Pieces.pl_mb, Pieces.rm_mb, if_neg huf, if_neg hut]

/-- Round trip of the piece mutation for a capturing promotion: as for a
quiet promotion, with the enemy occupant `c` of `t` removed first and
re-placed last. -/
theorem pieces_roundtrip_promo_cap (P : Pieces) (hC : ConsistentP P) (hB : BoundedP P)
    (w p c : Piece) (f t : Square) (hw : w ≠ Piece.None) (hp : p ≠ Piece.None)
    (hc : c ≠ Piece.None) (hwp : w ≠ p) (hwc : w ≠ c) (hpc : p ≠ c) (hft : f ≠ t)
    (hf : P.mb f = w) (ht : P.mb t = c) :
    ((((((P.rm c t).rm w f).pl p t).rm p t).pl w f).pl c t) = P := by
  refine Pieces.ext ?_ ?_
  · funext q
    by_cases hqc : q = c
    · subst hqc
      simp only [Pieces.pl_bb, Pieces.rm_bb, eq_self_iff_true, if_true,
        if_neg (show ¬ q = w from fun h => hwc h.symm),
        if_neg (show ¬ q = p from fun h => hpc h.symm)]
      exact bb_rm_pl_restore (P.bb q) (hB q) t (hC.bit_of_mb ht hc)
    · by_cases hqw : q = w
      · subst hqw
        simp only [Pieces.pl_bb, Pieces.rm_bb, eq_self_iff_true, if_true, if_neg hqc,
          if_neg (show ¬ q = p from fun h => hwp h)]
        exact bb_rm_pl_restore (P.bb q) (hB q) f (hC.bit_of_mb hf hw)
      · by_cases hqp : q = p
        · subst hqp
          simp only [Pieces.pl_bb, Pieces.rm_bb, eq_self_iff_true, if_true, if_neg hqc,
            if_neg hqw]
          exact bb_pl_rm_restore (P.bb q) (hB q) t
            (hC.bit_of_mb_ne (by rw [ht]; exact fun h => hqc h.symm) hp)
        · simp only [Pieces.pl_bb, Pieces.rm_bb, if_neg hqc, if_neg hqw, if_neg hqp]
  · funext u
    by_cases hut : u = t
    · subst hut
      simp only [Pieces.pl_mb, Pieces.rm_mb, eq_self_iff_true, if_true, ht]
    · by_cases huf : u = f
      · subst huf
        simp only [Pieces.pl_mb, Pieces.rm_mb, eq_self_iff_true, if_true, if_neg hut, hf]
      · simp only [Pieces.pl_mb, Pieces.rm_mb, if_neg hut, if_neg huf]

/-- Round trip of the piece mutation for castling: king `k` and rook `r`
are both removed from their origin squares `f` and `t` and placed on their
destinations `kTo` and `rTo`; the unmake removes and re-places them in the
reverse arrangement.  The destination squares may coincide with the origin
squares (non-standard castling positions); otherwise they are empty. -/
theorem pieces_roundtrip_castle (P : Pieces) (hC : ConsistentP P) (hB : BoundedP P)
    (k r : Piece) (f t kTo rTo : Square) (hk : k ≠ Piece.None) (hr : r ≠ Piece.None)
    (hkr : k ≠ r) (hft : f ≠ t) (hktrt : kTo ≠ rTo)
    (hf : P.mb f = k) (ht : P.mb t = r)
    (hkTo : kTo = f ∨ kTo = t ∨ P.mb kTo = Piece.None)
    (hrTo : rTo = f ∨ rTo = t ∨ P.mb rTo = Piece.None) :
    ((((((((P.rm k f).rm r t).pl k kTo).pl r rTo).rm r rTo).rm k kTo).pl k f).pl r t)
      = P := by
  refine Pieces.ext ?_ ?_
  · funext q
    by_cases hqk : q = k
    · subst hqk
      simp only [Pieces.pl_bb, Pieces.rm_bb, eq_self_iff_true, if_true,
        if_neg (show ¬ q = r from hkr)]
      refine bb_mv_restore (P.bb q) (hB q) f kTo (hC.bit_of_mb hf hk) ?_
      rcases hkTo with h | h | h
      · exact Or.inl h
      · exact Or.inr (h ▸ hC.bit_of_mb_ne (by rw [ht]; exact fun hh => hkr hh.symm) hk)
      · exact Or.inr (hC.bit_of_mb_ne (by rw [h]; exact fun hh => hk hh.symm) hk)
    · by_cases hqr : q = r
      · subst hqr
        simp only [Pieces.pl_bb, Pieces.rm_bb, eq_self_iff_true, if_true, if_neg hqk]
        refine bb_mv_restore (P.bb q) (hB q) t rTo (hC.bit_of_mb ht hr) ?_
        rcases hrTo with h | h | h
        · exact Or.inr (h ▸ hC.bit_of_mb_ne (by rw [hf]; exact fun hh => hqk hh.symm) hr)
        · exact Or.inl h
        · exact Or.inr (hC.bit_of_mb_ne (by rw [h]; exact fun hh => hr hh.symm) hr)
      · simp only [Pieces.pl_bb, Pieces.rm_bb, if_neg hqk, if_neg hqr]
  · funext u
    by_cases hut : u = t
    · subst hut
      simp only [Pieces.pl_mb, Pieces.rm_mb, eq_self_iff_true, if_true, ht]
    · by_cases huf : u = f
      · subst huf
        simp only [Pieces.pl_mb, Pieces.rm_mb, eq_self_iff_true, if_true, if_neg hut, hf]
      · by_cases hukTo : u = kTo
        · subst hukTo
          have hmb : P.mb u = Piece.None := by
            rcases hkTo with h | h | h
            · exact absurd h huf
            · exact absurd h hut
            · exact h
          simp only [Pieces.pl_mb, Pieces.rm_mb, eq_self_iff_true, if_true, if_neg hut,
            if_neg huf, hmb]
        · by_cases hurTo : u = rTo
          · subst hurTo
            have hmb : P.mb u = Piece.None := by
              rcases hrTo with h | h | h
              · exact absurd h huf
              · exact absurd h hut
              · exact h
            simp only [Pieces.pl_mb, Pieces.rm_mb, eq_self_iff_true, if_true, if_neg hut,
              if_neg huf, if_neg hukTo, hmb]
          · simp only [Pieces.pl_mb, Pieces.rm_mb, if_neg hut, if_neg huf, if_neg hukTo,
              if_neg hurTo]

/-- A real piece type never constructs the empty piece. -/
theorem makePiece_ne_None (pt : PieceType) (c : Color) (h : pt ≠ PieceType.NONETYPE) :
    makePiece pt c ≠ Piece.None := by
  cases pt <;> cases c <;> first | decide | exact absurd rfl h

/-- `type_of_piece` inverts `makePiece` on real piece types. -/
theorem type_of_makePiece (pt : PieceType) (c : Color) (h : pt ≠ PieceType.NONETYPE) :
    type_of_piece (makePiece pt c) = pt := by
  cases pt <;> cases c <;> first | rfl | exact absurd rfl h

/-- The color code of a constructed piece is its color. -/
theorem colorCode_makePiece (pt : PieceType) (c : Color) (h : pt ≠ PieceType.NONETYPE) :
    colorCode (makePiece pt c) = colorIdx c := by
  cases pt <;> cases c <;> first | rfl | exact absurd rfl h

/-- The two color codes differ. -/
theorem colorIdx_ne_op (c : Color) : colorIdx c ≠ colorIdx (opColor c) := by
  cases c <;> decide

/-- Only the king of `c` is the piece `WhiteKing`/`BlackKing` of its color. -/
theorem makePiece_eq_WK (pt : PieceType) (c : Color) :
    makePiece pt c = Piece.WhiteKing ↔ pt = PieceType.KING ∧ c = Color.White := by
  cases pt <;> cases c <;> decide

/-- Black-king version of `makePiece_eq_WK`. -/
theorem makePiece_eq_BK (pt : PieceType) (c : Color) :
    makePiece pt c = Piece.BlackKing ↔ pt = PieceType.KING ∧ c = Color.Black := by
  cases pt <;> cases c <;> decide

/-- A king and a rook of any colors are distinct pieces. -/
theorem king_ne_rook (c c' : Color) :
    makePiece PieceType.KING c ≠ makePiece PieceType.ROOK c' := by
  cases c <;> cases c' <;> decide

/-- The two castling destination squares are distinct. -/
theorem castleKingTo_ne_rookTo (m : Move) : castleKingTo m ≠ castleRookTo m := by
  unfold castleKingTo castleRookTo fileRankSquare
  intro h
  have hv := congrArg Fin.val h
  simp only at hv
  by_cases hc : m.from_sq.val < m.to_sq.val <;> simp [hc] at hv

/-- The castling test of `unmakeMove` recomputes exactly the castling test
of `makeMove`, given a legal move. -/
theorem unCastle_iff (b : Board) (m : Move) (hL : LegalPre b m) :
    unCastle (makePiece m.piece b.sideToMove) (b.board m.to_sq) ↔ isCastlingOf b m := by
  obtain ⟨hCore, hFrom, hCap, hCastle, hEp⟩ := hL
  constructor
  · rintro (⟨h1, h2⟩ | ⟨h1, h2⟩)
    · obtain ⟨hpt, hstm⟩ := (makePiece_eq_WK _ _).mp h1
      have hpromo : m.promoted = false := by
        cases hpr : m.promoted
        · rfl
        · exact absurd hpt (hCore.2.1 hpr).2
      refine ⟨hpt, ?_, ?_⟩
      · rw [h2]; rfl
      · rw [LegalFrom, hpromo] at hFrom
        simp only [Bool.false_eq_true, if_false] at hFrom
        rw [hFrom, h1, h2]
        decide
    · obtain ⟨hpt, hstm⟩ := (makePiece_eq_BK _ _).mp h1
      have hpromo : m.promoted = false := by
        cases hpr : m.promoted
        · rfl
        · exact absurd hpt (hCore.2.1 hpr).2
      refine ⟨hpt, ?_, ?_⟩
      · rw [h2]; rfl
      · rw [LegalFrom, hpromo] at hFrom
        simp only [Bool.false_eq_true, if_false] at hFrom
        rw [hFrom, h1, h2]
        decide
  · intro hIsC
    have hpt := hIsC.1
    have hrk := (hCastle hIsC).1
    unfold unCastle
    cases hstm : b.sideToMove
    · left
      rw [hpt, hrk, hstm]
      exact ⟨by decide, by decide⟩
    · right
      rw [hpt, hrk, hstm]
      exact ⟨by decide, by decide⟩

/-- En-passant geometry: under the rank constraints of a legal en-passant
capture, `Square(ep + offset)` of `unmakeMove` is the `Square(to ^ 8)` of
`makeMove`. -/
theorem epVictim_eq_xor8 (stm : Color) (t : Square)
    (hW : stm = Color.White → 40 ≤ t.val ∧ t.val < 48)
    (hB : stm = Color.Black → 16 ≤ t.val ∧ t.val < 24) :
    epVictimSq stm t = xor8 t := by
  have hxW : ∀ v : Fin 64, 40 ≤ v.val → v.val < 48 → v.val ^^^ 8 = v.val - 8 := by decide
  have hxB : ∀ v : Fin 64, 16 ≤ v.val → v.val < 24 → v.val ^^^ 8 = v.val + 8 := by decide
  cases stm
  · obtain ⟨h1, h2⟩ := hW rfl
    have hx : (xor8 t).val = t.val - 8 := hxW t h1 h2
    apply Fin.ext
    rw [hx]
    show ((((t.val : Int) + (if Color.White = Color.White then -8 else 8)) % 64).toNat)
      = t.val - 8
    rw [if_pos rfl]
    omega
  · obtain ⟨h1, h2⟩ := hB rfl
    have hx : (xor8 t).val = t.val + 8 := hxB t h1 h2
    apply Fin.ext
    rw [hx]
    show ((((t.val : Int) + (if Color.Black = Color.White then -8 else 8)) % 64).toNat)
      = t.val + 8
    rw [if_neg (by decide)]
    omega

/-- The color-conditional rook of `makeMove`/`unmakeMove` is the side's
rook. -/
theorem rookIf_eq (c : Color) :
    (if c = Color.White then Piece.WhiteRook else Piece.BlackRook) =
      makePiece PieceType.ROOK c := by
  cases c <;> rfl

/-- No piece "castles" against an empty capture field. -/
theorem unCastle_none (p : Piece) : ¬ unCastle p Piece.None := by
  rintro (⟨_, h⟩ | ⟨_, h⟩) <;> exact absurd h (by decide)

/-- Structure eta for the bitboard/mailbox pair. -/
theorem Pieces.mk_eta (P : Pieces) : Pieces.mk P.bb P.mb = P := rfl

/-- Round trip of `makeMove` / `unmakeMove` at the board level: from a
consistent position, a matching `unmakeMove` restores every field of the
pre-`makeMove` board (the statement is equality of entire `Board` records:
bitboards, mailbox, side to move, castling rights, en-passant square,
half-move clock, full-move number, `hashKey`, `pawnKey` and the history
stacks). -/
theorem makeMove_roundtrip (z : Zobrist) (b : Board) (m : Move)
    (hCo : b.Consistent) (hBo : b.Bounded) (hL : LegalPre b m) :
    unmakeMoveB (makeMoveB z b m) m = b := by
  obtain ⟨hCore, hFrom, hCap, hCastle, hEp⟩ := hL
  have hft : m.from_sq ≠ m.to_sq := hCore.1
  have hptN : m.piece ≠ PieceType.NONETYPE := hCore.2.2.2
  have hpne : makePiece m.piece b.sideToMove ≠ Piece.None := makePiece_ne_None _ _ hptN
  by_cases hC : isCastlingOf b m
  · -- castling
    have hP : m.promoted = false := by
      cases hpr : m.promoted
      · rfl
      · exact absurd hC.1 (hCore.2.1 hpr).2
    have hUC : unCastle (makePiece m.piece b.sideToMove) (b.board m.to_sq) :=
      (unCastle_iff b m ⟨hCore, hFrom, hCap, hCastle, hEp⟩).mpr hC
    have hpt1 : m.piece = PieceType.KING := hC.1
    have hnep : ¬ (m.piece = PieceType.PAWN ∧ b.enPassantSquare = some m.to_sq) := by
      rintro ⟨h1, _⟩
      rw [hpt1] at h1
      exact absurd h1 (by decide)
    obtain ⟨hcapR, hrank, hkTo, hrTo⟩ := hCastle hC
    have hfk : b.board m.from_sq = makePiece m.piece b.sideToMove := by
      rw [LegalFrom, hP] at hFrom
      simpa using hFrom
    simp only [makeMoveB, unmakeMoveB, makeMove, unmakeMove, fst_ite, rmN, plN, mvN,
      ite_self, Board.pieces, Pieces.mk_eta, Bool.false_eq_true, false_and, if_false,
      List.headD_cons, List.tail_cons, opColor_opColor, hC, hP, hnep, hUC, if_true, ite_true, ite_false, not_true,
      and_false, false_or, and_true, true_and, reduceCtorEq, if_pos, not_false_iff]
    rw [rookIf_eq]
    rw [pieces_roundtrip_castle ⟨b.piecesBB, b.board⟩ hCo hBo
      (makePiece m.piece b.sideToMove) (makePiece PieceType.ROOK b.sideToMove)
      m.from_sq m.to_sq (castleKingTo m) (castleRookTo m) hpne
      (makePiece_ne_None PieceType.ROOK b.sideToMove (by decide))
      (by rw [hpt1]; exact king_ne_rook _ _) hft
      (castleKingTo_ne_rookTo m) hfk hcapR hkTo hrTo]
    simp [Board.pieces, Nat.add_sub_cancel]
  · -- not castling
    have hnUC : ¬ unCastle (makePiece m.piece b.sideToMove) (b.board m.to_sq) :=
      fun h => hC ((unCastle_iff b m ⟨hCore, hFrom, hCap, hCastle, hEp⟩).mp h)
    by_cases hP : m.promoted = true
    · -- promotion
      have hw : b.board m.from_sq = makePiece PieceType.PAWN b.sideToMove := by
        rw [LegalFrom, hP] at hFrom
        simpa using hFrom
      have hptP : m.piece ≠ PieceType.PAWN := (hCore.2.1 hP).1
      have hnep : ¬ (m.piece = PieceType.PAWN ∧ b.enPassantSquare = some m.to_sq) :=
        fun h => hptP h.1
      have hnep2 : ¬ (b.enPassantSquare = some m.to_sq ∧ m.piece = PieceType.PAWN) :=
        fun h => hptP h.2
      have hwp : makePiece PieceType.PAWN b.sideToMove ≠ makePiece m.piece b.sideToMove := by
        intro h
        have := congrArg type_of_piece h
        rw [type_of_makePiece _ _ (by decide), type_of_makePiece _ _ hptN] at this
        exact hptP this.symm
      by_cases hcap : b.board m.to_sq = Piece.None
      · simp only [makeMoveB, unmakeMoveB, makeMove, unmakeMove, fst_ite, rmN, plN, mvN,
          ite_self, Board.pieces, Pieces.mk_eta, Bool.false_eq_true, false_and, if_false,
          List.headD_cons, List.tail_cons, opColor_opColor, hC, hP, hnep, hnep2, hnUC, unCastle_none, hcap,
          if_true, ite_true, ite_false, not_true, and_false, false_and, and_true,
          true_and, reduceCtorEq, not_false_iff, ne_eq, not_not, eq_self_iff_true, if_neg]
        rw [pieces_roundtrip_promo ⟨b.piecesBB, b.board⟩ hCo hBo
          (makePiece PieceType.PAWN b.sideToMove) (makePiece m.piece b.sideToMove)
          m.from_sq m.to_sq
          (makePiece_ne_None PieceType.PAWN b.sideToMove (by decide)) hpne hwp hft hw hcap]
        simp [Board.pieces, Nat.add_sub_cancel]
      · have hcolor : colorCode (b.board m.to_sq) = colorIdx (opColor b.sideToMove) :=
          hCap hcap hC
        have hwc : makePiece PieceType.PAWN b.sideToMove ≠ b.board m.to_sq := by
          intro h
          rw [← h, colorCode_makePiece _ _ (by decide)] at hcolor
          exact colorIdx_ne_op _ hcolor
        have hpc : makePiece m.piece b.sideToMove ≠ b.board m.to_sq := by
          intro h
          rw [← h, colorCode_makePiece _ _ hptN] at hcolor
          exact colorIdx_ne_op _ hcolor
        simp only [makeMoveB, unmakeMoveB, makeMove, unmakeMove, fst_ite, rmN, plN, mvN,
          ite_self, Board.pieces, Pieces.mk_eta, Bool.false_eq_true, false_and, if_false,
          List.headD_cons, List.tail_cons, opColor_opColor, hC, hP, hnep, hnep2, hnUC, hcap, if_true,
          ite_true, ite_false, not_true, and_false, false_and, and_true, true_and,
          reduceCtorEq, not_false_iff, ne_eq, not_not, eq_self_iff_true, if_neg]
        rw [pieces_roundtrip_promo_cap ⟨b.piecesBB, b.board⟩ hCo hBo
          (makePiece PieceType.PAWN b.sideToMove) (makePiece m.piece b.sideToMove)
          (b.board m.to_sq) m.from_sq m.to_sq
          (makePiece_ne_None PieceType.PAWN b.sideToMove (by decide)) hpne hcap
          hwp hwc hpc hft hw rfl]
        simp [Board.pieces, Nat.add_sub_cancel]
    · -- no promotion
      have hfp : b.board m.from_sq = makePiece m.piece b.sideToMove := by
        rw [LegalFrom] at hFrom
        rw [hFrom, if_neg hP]
      by_cases hE : m.piece = PieceType.PAWN ∧ b.enPassantSquare = some m.to_sq
      · -- en passant capture
        obtain ⟨htN, hvic, hvf, hrkW, hrkB⟩ := hEp hE.1 hE.2
        have hE2 : b.enPassantSquare = some m.to_sq ∧ m.piece = PieceType.PAWN :=
          ⟨hE.2, hE.1⟩
        have hvt : xor8 m.to_sq ≠ m.to_sq := by
          have hx : ∀ v : Fin 64, ¬ (v.val ^^^ 8 = v.val) := by decide
          intro h
          exact hx m.to_sq (congrArg Fin.val h)
        have hfpP : b.board m.from_sq = makePiece PieceType.PAWN b.sideToMove := by
          rw [← hE.1]
          exact hfp
        have hpe : makePiece PieceType.PAWN b.sideToMove ≠
            makePiece PieceType.PAWN (opColor b.sideToMove) := by
          intro h
          have hcc := congrArg colorCode h
          rw [colorCode_makePiece _ _ (by decide), colorCode_makePiece _ _ (by decide)]
            at hcc
          exact colorIdx_ne_op _ hcc
        have hvicX : epVictimSq b.sideToMove m.to_sq = xor8 m.to_sq :=
          epVictim_eq_xor8 _ _ hrkW hrkB
        simp only [makeMoveB, unmakeMoveB, makeMove, unmakeMove, fst_ite, rmN, plN, mvN,
          ite_self, Board.pieces, Pieces.mk_eta, Bool.false_eq_true, false_and, if_false,
          List.headD_cons, List.tail_cons, opColor_opColor, hC, hP, hE, hE2, hE.1, hE.2,
          hnUC, unCastle_none, htN, Option.getD_some, hvicX, if_true, ite_true, ite_false,
          not_true, and_false, false_and, and_true, true_and, and_self, reduceCtorEq,
          not_false_iff, ne_eq, not_not, eq_self_iff_true, if_neg]
        rw [pieces_roundtrip_ep ⟨b.piecesBB, b.board⟩ hCo hBo
          (makePiece PieceType.PAWN b.sideToMove)
          (makePiece PieceType.PAWN (opColor b.sideToMove))
          m.from_sq m.to_sq (xor8 m.to_sq)
          (makePiece_ne_None PieceType.PAWN b.sideToMove (by decide))
          (makePiece_ne_None PieceType.PAWN (opColor b.sideToMove) (by decide))
          hpe hft hvf hvt hfpP htN hvic]
        simp only [Nat.add_sub_cancel]
        rw [← hE.2]
      · have hE2 : ¬ (b.enPassantSquare = some m.to_sq ∧ m.piece = PieceType.PAWN) :=
          fun h => hE ⟨h.2, h.1⟩
        by_cases hcap : b.board m.to_sq = Piece.None
        · -- quiet move
          simp only [makeMoveB, unmakeMoveB, makeMove, unmakeMove, fst_ite, rmN, plN, mvN,
            ite_self, Board.pieces, Pieces.mk_eta, Bool.false_eq_true, false_and, if_false,
            List.headD_cons, List.tail_cons, opColor_opColor, hC, hP, hE, hE2, hnUC, unCastle_none, hcap,
            if_true, ite_true, ite_false, not_true, and_false, false_and, and_true,
            true_and, reduceCtorEq, not_false_iff, ne_eq, not_not, eq_self_iff_true,
            if_neg]
          rw [pieces_roundtrip_quiet ⟨b.piecesBB, b.board⟩ hCo hBo
            (makePiece m.piece b.sideToMove) m.from_sq m.to_sq hpne hft hfp hcap]
          simp [Board.pieces, Nat.add_sub_cancel]
        · -- ordinary capture
          have hcolor : colorCode (b.board m.to_sq) = colorIdx (opColor b.sideToMove) :=
            hCap hcap hC
          have hpc : makePiece m.piece b.sideToMove ≠ b.board m.to_sq := by
            intro h
            rw [← h, colorCode_makePiece _ _ hptN] at hcolor
            exact colorIdx_ne_op _ hcolor
          simp only [makeMoveB, unmakeMoveB, makeMove, unmakeMove, fst_ite, rmN, plN, mvN,
            ite_self, Board.pieces, Pieces.mk_eta, Bool.false_eq_true, false_and, if_false,
            List.headD_cons, List.tail_cons, opColor_opColor, hC, hP, hE, hE2, hnUC, hcap, if_true,
            ite_true, ite_false, not_true, and_false, false_and, and_true, true_and,
            reduceCtorEq, not_false_iff, ne_eq, not_not, eq_self_iff_true, if_neg]
          rw [pieces_roundtrip_capture ⟨b.piecesBB, b.board⟩ hCo hBo
            (makePiece m.piece b.sideToMove) (b.board m.to_sq) m.from_sq m.to_sq hpne hcap
            hpc hft hfp rfl]
          simp [Board.pieces, Nat.add_sub_cancel]

/-- `makeMove` preserves board-representation consistency and 64-bit-ness
of the bitboards, for legal moves from consistent positions. -/
theorem makeMoveB_inv (z : Zobrist) (b : Board) (m : Move)
    (hCo : b.Consistent) (hBo : b.Bounded) (hL : LegalPre b m) :
    (makeMoveB z b m).Consistent ∧ (makeMoveB z b m).Bounded := by
  obtain ⟨hCore, hFrom, hCap, hCastle, hEp⟩ := hL
  have hft : m.from_sq ≠ m.to_sq := hCore.1
  have hptN : m.piece ≠ PieceType.NONETYPE := hCore.2.2.2
  have hpne : makePiece m.piece b.sideToMove ≠ Piece.None := makePiece_ne_None _ _ hptN
  by_cases hC : isCastlingOf b m
  · -- castling
    have hP : m.promoted = false := by
      cases hpr : m.promoted
      · rfl
      · exact absurd hC.1 (hCore.2.1 hpr).2
    have hpt1 : m.piece = PieceType.KING := hC.1
    have hnep : ¬ (m.piece = PieceType.PAWN ∧ b.enPassantSquare = some m.to_sq) := by
      rintro ⟨h1, _⟩
      rw [hpt1] at h1
      exact absurd h1 (by decide)
    obtain ⟨hcapR, hrank, hkTo, hrTo⟩ := hCastle hC
    have hfk : b.board m.from_sq = makePiece m.piece b.sideToMove := by
      rw [LegalFrom, hP] at hFrom
      simpa using hFrom
    simp only [makeMoveB, makeMove, fst_ite, rmN, plN, mvN, ite_self, Board.Consistent,
      Board.Bounded, Board.pieces, Pieces.mk_eta, Bool.false_eq_true, false_and, if_false,
      hC, hP, hnep, if_true, ite_true, ite_false, not_true, and_false, false_and,
      reduceCtorEq, not_false_iff]
    rw [rookIf_eq]
    have hC1 := hCo.rmP hfk
    have hC2 : ConsistentP ((Pieces.rm ⟨b.piecesBB, b.board⟩
        (makePiece m.piece b.sideToMove) m.from_sq).rm
        (makePiece PieceType.ROOK b.sideToMove) m.to_sq) := by
      refine hC1.rmP ?_
      rw [Pieces.rm_mb, if_neg (fun h => hft h.symm)]
      exact hcapR
    have hC3 : ConsistentP (((Pieces.rm ⟨b.piecesBB, b.board⟩
        (makePiece m.piece b.sideToMove) m.from_sq).rm
        (makePiece PieceType.ROOK b.sideToMove) m.to_sq).pl
        (makePiece m.piece b.sideToMove) (castleKingTo m)) := by
      refine hC2.plP hpne ?_
      rw [Pieces.rm_mb, Pieces.rm_mb]
      rcases hkTo with h | h | h
      · rw [h]
        split
        · rfl
        · rw [if_pos rfl]
      · rw [if_pos h]
      · split
        · rfl
        · split
          · rfl
          · exact h
    constructor
    · refine hC3.plP (makePiece_ne_None PieceType.ROOK b.sideToMove (by decide)) ?_
      rw [Pieces.pl_mb, if_neg (fun h => castleKingTo_ne_rookTo m h.symm),
        Pieces.rm_mb, Pieces.rm_mb]
      rcases hrTo with h | h | h
      · rw [h]
        split
        · rfl
        · rw [if_pos rfl]
      · rw [if_pos h]
      · split
        · rfl
        · split
          · rfl
          · exact h
    · exact (((hBo.rmB _ _).rmB _ _).plB _ _).plB _ _
  · have hnep2 : m.piece = PieceType.PAWN → b.enPassantSquare = some m.to_sq →
        b.board m.to_sq = Piece.None := fun h1 h2 => (hEp h1 h2).1
    by_cases hP : m.promoted = true
    · -- promotion
      have hw : b.board m.from_sq = makePiece PieceType.PAWN b.sideToMove := by
        rw [LegalFrom, hP] at hFrom
        simpa using hFrom
      have hptP : m.piece ≠ PieceType.PAWN := (hCore.2.1 hP).1
      have hnep : ¬ (m.piece = PieceType.PAWN ∧ b.enPassantSquare = some m.to_sq) :=
        fun h => hptP h.1
      by_cases hcap : b.board m.to_sq = Piece.None
      · simp only [makeMoveB, makeMove, fst_ite, rmN, plN, mvN, ite_self, Board.Consistent,
          Board.Bounded, Board.pieces, Pieces.mk_eta, Bool.false_eq_true, false_and,
          if_false, hC, hP, hnep, hcap, if_true, ite_true, ite_false, not_true, and_false,
          false_and, and_true, true_and, reduceCtorEq, not_false_iff, ne_eq, not_not,
          eq_self_iff_true, if_neg]
        constructor
        · refine (hCo.rmP hw).plP hpne ?_
          rw [Pieces.rm_mb, if_neg (fun h => hft h.symm)]
          exact hcap
        · exact (hBo.rmB _ _).plB _ _
      · simp only [makeMoveB, makeMove, fst_ite, rmN, plN, mvN, ite_self, Board.Consistent,
          Board.Bounded, Board.pieces, Pieces.mk_eta, Bool.false_eq_true, false_and,
          if_false, hC, hP, hnep, hcap, if_true, ite_true, ite_false, not_true, and_false,
          false_and, and_true, true_and, reduceCtorEq, not_false_iff, ne_eq, not_not,
          eq_self_iff_true, if_neg]
        constructor
        · have h1 := hCo.rmP (p := b.board m.to_sq) rfl
          have h2 : ConsistentP ((Pieces.rm ⟨b.piecesBB, b.board⟩
              (b.board m.to_sq) m.to_sq).rm
              (makePiece PieceType.PAWN b.sideToMove) m.from_sq) := by
            refine h1.rmP ?_
            rw [Pieces.rm_mb, if_neg hft]
            exact hw
          refine h2.plP hpne ?_
          rw [Pieces.rm_mb, if_neg (fun h => hft h.symm), Pieces.rm_mb, if_pos rfl]
        · exact ((hBo.rmB _ _).rmB _ _).plB _ _
    · -- no promotion
      have hfp : b.board m.from_sq = makePiece m.piece b.sideToMove := by
        rw [LegalFrom] at hFrom
        rw [hFrom, if_neg hP]
      by_cases hE : m.piece = PieceType.PAWN ∧ b.enPassantSquare = some m.to_sq
      · -- en passant capture
        obtain ⟨htN, hvic, hvf, hrkW, hrkB⟩ := hEp hE.1 hE.2
        have hvt : xor8 m.to_sq ≠ m.to_sq := by
          have hx : ∀ v : Fin 64, ¬ (v.val ^^^ 8 = v.val) := by decide
          intro h
          exact hx m.to_sq (congrArg Fin.val h)
        have hfpP : b.board m.from_sq = makePiece PieceType.PAWN b.sideToMove := by
          rw [← hE.1]
          exact hfp
        simp only [makeMoveB, makeMove, fst_ite, rmN, plN, mvN, ite_self, Board.Consistent,
          Board.Bounded, Board.pieces, Pieces.mk_eta, Bool.false_eq_true, false_and,
          if_false, hC, hP, hE, hE.1, hE.2, htN, if_true, ite_true, ite_false, not_true,
          and_false, false_and, and_true, true_and, and_self, reduceCtorEq, not_false_iff,
          ne_eq, not_not, eq_self_iff_true, if_neg]
        constructor
        · refine (hCo.rmP hvic).mvP (makePiece_ne_None PieceType.PAWN b.sideToMove
            (by decide)) ?_ ?_
          · rw [Pieces.rm_mb, if_neg (fun h => hvf h.symm)]
            exact hfpP
          · rw [Pieces.rm_mb, if_neg (fun h => hvt h.symm)]
            exact htN
        · exact (hBo.rmB _ _).mvB _ _ _
      · by_cases hcap : b.board m.to_sq = Piece.None
        · -- quiet move
          simp only [makeMoveB, makeMove, fst_ite, rmN, plN, mvN, ite_self,
            Board.Consistent, Board.Bounded, Board.pieces, Pieces.mk_eta,
            Bool.false_eq_true, false_and, if_false, hC, hP, hE, hcap, if_true, ite_true,
            ite_false, not_true, and_false, false_and, and_true, true_and, reduceCtorEq,
            not_false_iff, ne_eq, not_not, eq_self_iff_true, if_neg]
          exact ⟨hCo.mvP hpne hfp hcap, hBo.mvB _ _ _⟩
        · -- ordinary capture
          simp only [makeMoveB, makeMove, fst_ite, rmN, plN, mvN, ite_self,
            Board.Consistent, Board.Bounded, Board.pieces, Pieces.mk_eta,
            Bool.false_eq_true, false_and, if_false, hC, hP, hE, hcap, if_true, ite_true,
            ite_false, not_true, and_false, false_and, and_true, true_and, reduceCtorEq,
            not_false_iff, ne_eq, not_not, eq_self_iff_true, if_neg]
          constructor
          · refine (hCo.rmP (p := b.board m.to_sq) rfl).mvP hpne ?_ ?_
            · rw [Pieces.rm_mb, if_neg hft]
              exact hfp
            · rw [Pieces.rm_mb, if_pos rfl]
          · exact (hBo.rmB _ _).mvB _ _ _

/-- Well-formedness bounds: the column count stays within a rank and at
most 8 ranks are consumed. -/
theorem wfP_bounds : ∀ (cs : List Char) (w r : Nat), wfP cs w r = true → w ≤ 8 ∧ r ≤ 7 := by
  intro cs
  induction cs with
  | nil =>
      intro w r h
      unfold wfP at h
      simp only [Bool.and_eq_true, beq_iff_eq] at h
      omega
  | cons c cs ih =>
      intro w r h
      unfold wfP at h
      cases hcp : charToPiece c with
      | some piece =>
          rw [hcp] at h
          simp only [Bool.and_eq_true, decide_eq_true_eq] at h
          have := ih _ _ h.2
          omega
      | none =>
          rw [hcp] at h
          by_cases hsl : c = '/'
          · rw [if_pos hsl] at h
            simp only [Bool.and_eq_true, decide_eq_true_eq] at h
            have := ih _ _ h.2
            omega
          · rw [if_neg hsl] at h
            by_cases hd :
                (isDigitCh c && decide (1 ≤ digitVal c) && decide (digitVal c ≤ 8)) = true
            · rw [if_pos hd] at h
              simp only [Bool.and_eq_true, decide_eq_true_eq] at h hd
              have := ih _ _ h.2
              omega
            · rw [if_neg hd] at h
              exact absurd h (by simp)

/-- Characters recognized as pieces denote real pieces. -/
theorem charToPiece_ne_None (c : Char) (p : Piece) (h : charToPiece c = some p) :
    p ≠ Piece.None := by
  unfold charToPiece at h
  split at h <;>
    first
      | (injection h with h'
         subst h'
         decide)
      | exact absurd h (by simp)

/-- The placement loop on a well-formed placement succeeds and preserves
consistency and boundedness: `w` columns of the current rank are consumed,
`r` ranks are complete, the counter sits at `56 - 8r + w`, and every square
still to be written (the rest of the current rank and all lower ranks) is
empty. -/
theorem parse_ok (z : Zobrist) : ∀ (cs : List Char) (w r : Nat) (P : Pieces) (pk : Nat),
    wfP cs w r = true → ConsistentP P → BoundedP P →
    (∀ q : Square, (q.val < 8 * (7 - r) ∨
      (8 * (7 - r) + w ≤ q.val ∧ q.val < 8 * (7 - r) + 8)) → P.mb q = Piece.None) →
    ∃ P' pk', parsePlacement z cs ((56 : Int) - 8 * r + w) P pk = some (P', pk') ∧
      ConsistentP P' ∧ BoundedP P' := by
  intro cs
  induction cs with
  | nil =>
      intro w r P pk hwf hC hB hreg
      exact ⟨P, pk, rfl, hC, hB⟩
  | cons c cs ih =>
      intro w r P pk hwf hC hB hreg
      unfold wfP at hwf
      unfold parsePlacement
      cases hcp : charToPiece c with
      | some piece =>
          rw [hcp] at hwf
          simp only [Bool.and_eq_true, decide_eq_true_eq] at hwf
          obtain ⟨hw8, hwf'⟩ := hwf
          obtain ⟨hw8', hr7⟩ := wfP_bounds cs (w + 1) r hwf'
          simp only []
          have hin : (0 : Int) ≤ (56 : Int) - 8 * r + w ∧ ((56 : Int) - 8 * r + w) < 64 := by
            constructor <;> [skip; skip] <;> omega
          rw [dif_pos hin]
          have hsval : ((56 : Int) - 8 * r + w).toNat = 8 * (7 - r) + w := by omega
          have hsq : P.mb ⟨((56 : Int) - 8 * r + w).toNat, by omega⟩ = Piece.None := by
            apply hreg
            simp only [Fin.val_mk]
            omega
          have hC' := hC.plP (charToPiece_ne_None c piece hcp) hsq
          have hB' := hB.plB piece ⟨((56 : Int) - 8 * r + w).toNat, by omega⟩
          have harith : ((56 : Int) - 8 * r + w) + 1 =
              (56 : Int) - 8 * r + ((w + 1 : Nat) : Int) := by
            push_cast
            ring
          rw [harith]
          refine ih (w + 1) r _ _ hwf' hC' hB' ?_
          intro q hq
          rw [Pieces.pl_mb]
          have hqne : ¬ q = ⟨((56 : Int) - 8 * r + w).toNat, by omega⟩ := by
            intro he
            have := congrArg Fin.val he
            simp only [hsval] at this
            omega
          rw [if_neg hqne]
          apply hreg
          omega
      | none =>
          rw [hcp] at hwf
          simp only []
          by_cases hsl : c = '/'
          · rw [if_pos hsl] at hwf
            rw [if_pos hsl]
            simp only [Bool.and_eq_true, decide_eq_true_eq] at hwf
            obtain ⟨hw8, hwf'⟩ := hwf
            obtain ⟨_, hr7⟩ := wfP_bounds cs 0 (r + 1) hwf'
            have harith : ((56 : Int) - 8 * r + w) - 16 =
                (56 : Int) - 8 * ((r + 1 : Nat) : Int) + ((0 : Nat) : Int) := by
              push_cast
              omega
            rw [harith]
            refine ih 0 (r + 1) P pk hwf' hC hB ?_
            intro q hq
            apply hreg
            omega
          · rw [if_neg hsl] at hwf
            rw [if_neg hsl]
            by_cases hd :
                (isDigitCh c && decide (1 ≤ digitVal c) && decide (digitVal c ≤ 8)) = true
            swap
            · rw [if_neg hd] at hwf
              exact absurd hwf (by simp)
            · rw [if_pos hd] at hwf
              simp only [Bool.and_eq_true, decide_eq_true_eq] at hd hwf
              obtain ⟨⟨hdig, hd1⟩, hd8⟩ := hd
              obtain ⟨hw8, hwf'⟩ := hwf
              rw [if_pos hdig]
              have harith : ((56 : Int) - 8 * r + w) + (digitVal c : Int) =
                  (56 : Int) - 8 * r + ((w + digitVal c : Nat) : Int) := by
                push_cast
                ring
              rw [harith]
              refine ih (w + digitVal c) r P pk hwf' hC hB ?_
              intro q hq
              apply hreg
              omega

/-- Every bitboard of the emptied `Pieces` value handed to the placement
loop by `applyFen` (src/chess.cpp:45-49, 63-66) is zero. -/
theorem fenStartP_bb (p : Piece) :
    (⟨fun p => if p = Piece.None then Board.init.piecesBB Piece.None else 0,
      fun _ => Piece.None⟩ : Pieces).bb p = 0 := by
  show (if p = Piece.None then Board.init.piecesBB Piece.None else 0) = 0
  by_cases hp : p = Piece.None
  · rw [if_pos hp]
    rfl
  · rw [if_neg hp]

/-- A successful load of a well-formed descriptor yields a consistent,
bounded board: the placement loop starts from an empty, trivially
consistent state and `parse_ok` carries the invariant through; the other
fields of the loader do not touch the piece data. -/
theorem applyFen_inv (z : Zobrist) (fen : List Char) (b : Board)
    (hwf : wellFormedFEN fen = true)
    (h : applyFen z fen Board.init = some b) :
    b.Consistent ∧ b.Bounded := by
  unfold wellFormedFEN at hwf
  unfold applyFen at h
  cases hsp : splitInput fen with
  | nil =>
      rw [hsp] at hwf
      exact absurd hwf (by simp)
  | cons pos rest =>
      rw [hsp] at hwf h
      have hwfp : wfP pos 0 0 = true := hwf
      have hC0 : ConsistentP
          ⟨fun p => if p = Piece.None then Board.init.piecesBB Piece.None else 0,
            fun _ => Piece.None⟩ := by
        intro s p hp
        rw [fenStartP_bb]
        simp only [Nat.zero_testBit, Bool.false_eq_true, false_iff]
        intro hmb
        exact hp hmb.symm
      have hB0 : BoundedP
          ⟨fun p => if p = Piece.None then Board.init.piecesBB Piece.None else 0,
            fun _ => Piece.None⟩ := by
        intro p
        rw [fenStartP_bb]
        norm_num
      obtain ⟨P', pk', hpp, hC', hB'⟩ := parse_ok z pos 0 0
        ⟨fun p => if p = Piece.None then Board.init.piecesBB Piece.None else 0,
          fun _ => Piece.None⟩ 0 hwfp hC0 hB0 (fun q _ => rfl)
      simp only [Nat.cast_zero, mul_zero, sub_zero, add_zero] at hpp
      have hres : ∀ pr : Pieces × Nat,
          parsePlacement z pos 56
            ⟨fun p => if p = Piece.None then Board.init.piecesBB Piece.None else 0,
              fun _ => Piece.None⟩ 0 = some pr →
          ConsistentP pr.1 ∧ BoundedP pr.1 := by
        intro pr hpr
        rw [hpp] at hpr
        cases hpr
        exact ⟨hC', hB'⟩
      simp only [Option.bind_eq_bind, Option.bind_eq_some, Option.pure_def,
        Option.some.injEq, List.get?_cons_zero, List.get?_cons_succ, exists_eq_left] at h
      obtain ⟨position, hpe, mr, hmr, ca, hca, epf, hepf, h⟩ := h
      subst hpe
      by_cases hlen : (pos :: rest).length > 4
      · simp only [if_pos hlen, Option.bind_eq_some, Option.some.injEq] at h
        obtain ⟨a0, ha0, a1, ha1, parsed, hparsed, ep, hep, hm, hhm, fm, hfm, hb⟩ := h
        subst hb
        exact ⟨(hres parsed hparsed).1, (hres parsed hparsed).2⟩
      · simp only [if_neg hlen, Option.bind_eq_some, Option.some.injEq] at h
        obtain ⟨a0, ha0, a1, ha1, parsed, hparsed, ep, hep, hm, hhm, fm, hfm, hb⟩ := h
        subst hb
        exact ⟨(hres parsed hparsed).1, (hres parsed hparsed).2⟩

/-- Both invariants hold on every reachable position: loads establish them
(`applyFen_inv`), makes preserve them (`makeMoveB_inv`), null moves leave
the piece data untouched, and unmakes restore the previous board
(`makeMove_roundtrip`, `nullMove_roundtrip`). -/
theorem reachable_inv (z : Zobrist) (b : Board) (h : Reachable z b) :
    b.Consistent ∧ b.Bounded := by
  induction h with
  | load fen b hwf happ => exact applyFen_inv z fen b hwf happ
  | mk b m hb hL ih => exact makeMoveB_inv z b m ih.1 ih.2 hL
  | nullmk b hb ih => exact ih
  | unmk b m hb hL ih =>
      rw [makeMove_roundtrip z b m ih.1 ih.2 hL]
      exact ih
  | unnull b hb ih =>
      rw [nullMove_roundtrip z b]
      exact ih

/-- C9: on every reachable position the mailbox and the twelve piece
bitboards agree — a real piece's bitboard has a square's bit set exactly
when the mailbox holds that piece there (so the mailbox is empty exactly
when no bitboard claims the square), and no two distinct piece identities
claim the same square. -/
theorem claim_C9_consistency (z : Zobrist) (b : Board) (h : Reachable z b) :
    (∀ (s : Square) (p : Piece), p ≠ Piece.None →
      ((b.piecesBB p).testBit s.val ↔ b.board s = p)) ∧
    (∀ (s : Square) (p q : Piece), p ≠ Piece.None → q ≠ Piece.None →
      (b.piecesBB p).testBit s.val = true → (b.piecesBB q).testBit s.val = true → p = q) := by
  have hC : ConsistentP b.pieces := (reachable_inv z b h).1
  refine ⟨fun s p hp => hC s p hp, fun s p q hp hq hbp hbq => ?_⟩
  have h1 : b.board s = p := (hC s p hp).1 hbp
  have h2 : b.board s = q := (hC s q hq).1 hbq
  rw [← h1, h2]

/-- C1: unmaking a legal move made on a reachable position restores the
board exactly — bitboards, mailbox, side to move, castling rights,
en-passant square, clocks, hash key and pawn key all return to their
pre-`makeMove` values (full record equality, independent of the evaluator
flags and king-bucket map used). -/
theorem claim_C1_roundtrip (u1 u2 : Bool) (κ : Square → Nat) (z : Zobrist)
    (b : Board) (m : Move) (hR : Reachable z b) (hL : LegalPre b m) :
    (unmakeMove u2 (makeMove u1 κ z b m).1 m).1 = b := by
  rw [makeMove_fst, unmakeMove_fst]
  obtain ⟨hC, hB⟩ := reachable_inv z b hR
  exact makeMove_roundtrip z b m hC hB hL

instance (P : Pieces) : Decidable (ConsistentP P) := by
  unfold ConsistentP
  infer_instance

instance (P : Pieces) : Decidable (BoundedP P) := by
  unfold BoundedP
  infer_instance

instance (b : Board) : Decidable b.Consistent := by
  unfold Board.Consistent
  infer_instance

instance (b : Board) : Decidable b.Bounded := by
  unfold Board.Bounded
  infer_instance

/-- The one-bucket king-bucket table (a legitimate instantiation of the
abstract `NNUE::KING_BUCKET`): with it only the mirror-line test of the
crossing predicate can fire. -/
def bucket0 : Square → Nat := fun _ => 0

/-- A legal position with kings on e1/e8 and a White pawn on e2. -/
def fenW : List Char := "4k3/8/8/8/8/8/4P3/4K3 w - - 0 1".toList

/-- The board loaded from `fenW`. -/
def startW : Board := (applyFen zZero fenW Board.init).getD Board.init

/-- The quiet pawn move e2–e3. -/
def mW : Move := ⟨12, 20, PieceType.PAWN, false⟩

/-- A position with a Black pawn on d4 ready to capture en passant after
White's e2–e4. -/
def fenEp : List Char := "4k3/8/8/8/3p4/8/4P3/4K3 w - - 0 1".toList

/-- The board loaded from `fenEp`. -/
def bEp : Board := (applyFen zZero fenEp Board.init).getD Board.init

/-- The double pawn advance e2–e4. -/
def mEp : Move := ⟨12, 28, PieceType.PAWN, false⟩

/-- The king move e1–d1: file 4 + file 3 = 7, so it crosses the central
mirror line. -/
def mKingC5 : Move := ⟨4, 3, PieceType.KING, false⟩

theorem claim_C1_roundtrip_witness :
    Reachable zZero startW ∧ LegalPre startW mW ∧
    (unmakeMove false (makeMove true bucket0 zZero startW mW).1 mW).1 = startW :=
  ⟨Reachable.load fenW startW (by decide) rfl, by decide,
   claim_C1_roundtrip true false bucket0 zZero startW mW
     (Reachable.load fenW startW (by decide) rfl) (by decide)⟩

theorem claim_C9_consistency_witness :
    Reachable zZero startW ∧
    ((∀ (s : Square) (p : Piece), p ≠ Piece.None →
        ((startW.piecesBB p).testBit s.val ↔ startW.board s = p)) ∧
     (∀ (s : Square) (p q : Piece), p ≠ Piece.None → q ≠ Piece.None →
        (startW.piecesBB p).testBit s.val = true →
        (startW.piecesBB q).testBit s.val = true → p = q)) :=
  ⟨Reachable.load fenW startW (by decide) rfl,
   claim_C9_consistency zZero startW (Reachable.load fenW startW (by decide) rfl)⟩

theorem claim_C4_ep_gating_witness :
    (bEp.Consistent ∧ bEp.Bounded ∧ mEp.piece = PieceType.PAWN ∧ mEp.promoted = false ∧
     bEp.enPassantSquare ≠ some mEp.to_sq ∧ absDiff mEp.from_sq.val mEp.to_sq.val = 16) ∧
    (((makeMoveB zZero bEp mEp).enPassantSquare = some (xor8 mEp.to_sq) ↔
        ∃ s : Square, (PawnAttacks (xor8 mEp.to_sq) bEp.sideToMove).testBit s.val ∧
          bEp.board s = makePiece PieceType.PAWN (opColor bEp.sideToMove)) ∧
     ((makeMoveB zZero bEp mEp).enPassantSquare = some (xor8 mEp.to_sq) ∨
      (makeMoveB zZero bEp mEp).enPassantSquare = none)) :=
  ⟨⟨by decide, by decide, rfl, rfl, by decide, by decide⟩,
   claim_C4_ep_gating zZero bEp mEp (by decide) (by decide) rfl rfl
     (by decide) (by decide)⟩

theorem claim_C5_king_bucket_refresh_witness :
    (mKingC5.piece = PieceType.KING ∧ mKingC5.promoted = false ∧
     crossKing bucket0 startW.sideToMove mKingC5.from_sq
       (if isCastlingOf startW mKingC5 then castleKingTo mKingC5 else mKingC5.to_sq)) ∧
    (((makeMove true bucket0 zZero startW mKingC5).2.any NNEvent.isRefreshE = true) ∧
     ((makeMove true bucket0 zZero startW mKingC5).2.all
        (fun e => !(NNEvent.isAccMoveE e)) = true) ∧
     (∃ pre, (makeMove true bucket0 zZero startW mKingC5).2 =
        pre ++ [NNEvent.refresh ((makeMove true bucket0 zZero startW mKingC5).1.piecesBB)
                                ((makeMove true bucket0 zZero startW mKingC5).1.board)])) :=
  ⟨⟨rfl, rfl, by decide⟩,
   claim_C5_king_bucket_refresh bucket0 zZero startW mKingC5 rfl rfl (by decide)⟩

theorem claim_C6_white_kingside_castle_witness :
    (bCastle.sideToMove = Color.White ∧ bCastle.board 4 = Piece.WhiteKing ∧
     bCastle.board 7 = Piece.WhiteRook ∧ bCastle.castlingRights &&& wkFlag ≠ 0) ∧
    ((makeMoveB zKingG1 bCastle wkCastleMove).castlingRights =
        bCastle.castlingRights &&& (bkFlag ||| bqFlag) ∧
     (makeMoveB zKingG1 bCastle wkCastleMove).board 6 = Piece.WhiteKing ∧
     (makeMoveB zKingG1 bCastle wkCastleMove).board 5 = Piece.WhiteRook ∧
     (makeMoveB zKingG1 bCastle wkCastleMove).board 4 = Piece.None ∧
     (makeMoveB zKingG1 bCastle wkCastleMove).board 7 = Piece.None ∧
     ((makeMoveB zKingG1 bCastle wkCastleMove).piecesBB Piece.WhiteKing).testBit 6 = true ∧
     ((makeMoveB zKingG1 bCastle wkCastleMove).piecesBB Piece.WhiteRook).testBit 5 = true ∧
     (makeMoveB zKingG1 bCastle wkCastleMove).castlingRights &&& (bkFlag ||| bqFlag) =
        bCastle.castlingRights &&& (bkFlag ||| bqFlag)) :=
  ⟨⟨by decide, by decide, by decide, by decide⟩,
   claim_C6_white_kingside_castle zKingG1 bCastle (by decide) (by decide)
     (by decide) (by decide)⟩

end Rice